import Mathlib

/-!
Vantage-point tree of `pkg/vptree/vptree.go`

A shallow embedding of the VP-tree builder and k-nearest-neighbour search.

* `float64` distances are modelled by exact rationals (`ℚ`); `math.MaxFloat64`
  is the rational `2 ^ 1024 - 2 ^ 971`.  Arithmetic on distances is exact: rounding
  and the values `±Inf` and `NaN` are outside the model.
* A `*node` is a value of the inductive type `node`: the nil pointer is
  `node.nil`, a pointer to a struct is `node.mk`.
* `TreeItem.Distance` is a parameter `Distance : α → α → ℚ`; the call
  `a.Distance(b)` is `Distance a b`.
* `rand.Intn` is a stream `rnd : ℕ → ℕ` of raw draws with a cursor: the
  `pos`-th call `rand.Intn(n)` returns `rnd pos % n`.
* Slices are lists.  Code that can panic (index out of range, a loop that would
  not stop within its fuel) returns `Option`; `none` is the panic.
* `container/heap` (Go standard library) is embedded from its source:
  `heap.Push`, `heap.Pop`, `up`, `down`.
* `searchEvals` and `searchTrace` follow the traversal of `search` and record what it
  does: the number of calls of `Distance`, and the state `(*tau, *h)` after each node visit.
* Integers are unbounded (`ℕ` for indices and lengths, `ℤ` for `k`).
* The allocation `make(priorityQueue, 0, k)` is `makePriorityQueue maxCap k`, where
  `maxCap` is the largest capacity that the runtime grants; it panics above that bound.
  `SearchCap` is the method `Search` with this allocation, `Search` is the method on the
  runs in which the allocation succeeds, where the capacity has no effect on the result.
-/

namespace vptree

/-- The constant `math.MaxFloat64`, which is `2^1023 * (2 - 2^-52)`. -/
def maxFloat64 : ℚ := 2 ^ 1024 - 2 ^ 971

/-- The `*node` of the source: `nil`, or a struct with `Item`, `Threshold`, `Left`, `Right`. -/
inductive node (α : Type) where
  | nil : node α
  | mk (Item : α) (Threshold : ℚ) (Left Right : node α) : node α
  deriving DecidableEq, Repr

/-- The test `n == nil` on a `*node`. -/
def node.isNil {α : Type} : node α → Bool
  | node.nil => true
  | node.mk _ _ _ _ => false

/-- The struct `heapItem`. -/
structure heapItem (α : Type) where
  Item : α
  Dist : ℚ
  deriving DecidableEq, Repr

/-- The type `priorityQueue []*heapItem`. -/
abbrev priorityQueue (α : Type) := List (heapItem α)

/-- The struct `VPTree`. -/
structure VPTree (α : Type) where
  Root : node α
  Length : ℕ
  deriving DecidableEq, Repr

section slices

variable {α : Type}

/-- The assignment `s[i], s[j] = s[j], s[i]`; panics when an index is out of range. -/
def swapAt (s : List α) (i j : ℕ) : Option (List α) :=
  match s[i]?, s[j]? with
  | some a, some b => some ((s.set i b).set j a)
  | _, _ => none

/-- The slice expression `s[lo:hi]`; panics when the bounds are out of range. -/
def subslice (s : List α) (lo hi : ℕ) : Option (List α) :=
  if lo ≤ hi ∧ hi ≤ s.length then some ((s.take hi).drop lo) else none

end slices

section heap

variable {α : Type}

/-- The method `priorityQueue.Len`. -/
def priorityQueue.Len (pq : priorityQueue α) : ℕ := pq.length

/-- The method `priorityQueue.Less`: `pq[i].Dist > pq[j].Dist`. -/
def priorityQueue.Less (pq : priorityQueue α) (i j : ℕ) : Option Bool :=
  match pq[i]?, pq[j]? with
  | some a, some b => some (decide (a.Dist > b.Dist))
  | _, _ => none

/-- The method `priorityQueue.Swap`. -/
def priorityQueue.Swap (pq : priorityQueue α) (i j : ℕ) : Option (priorityQueue α) :=
  swapAt pq i j

/-- The method `priorityQueue.Push`: `*pq = append(*pq, item)`. -/
def priorityQueue.Push (pq : priorityQueue α) (item : heapItem α) : priorityQueue α :=
  pq ++ [item]

/-- The method `priorityQueue.Pop`: returns `old[n-1]` and leaves `old[0 : n-1]`. -/
def priorityQueue.Pop (pq : priorityQueue α) : Option (heapItem α × priorityQueue α) :=
  match pq[pq.length - 1]? with
  | some item => some (item, pq.take (pq.length - 1))
  | none => none

/-- The method `priorityQueue.Top`: `pq[0]`. -/
def priorityQueue.Top (pq : priorityQueue α) : Option (heapItem α) := pq[0]?

/-- The loop of `container/heap.up`; every round moves `j` to its parent, so `j + 1`
rounds of fuel are enough. -/
def up : ℕ → priorityQueue α → ℕ → Option (priorityQueue α)
  | 0, _, _ => none
  | fuel + 1, h, j =>
    let i := (j - 1) / 2
    if i = j then some h
    else
      match h.Less j i with
      | none => none
      | some false => some h
      | some true =>
        match h.Swap i j with
        | none => none
        | some h1 => up fuel h1 i

/-- The loop of `container/heap.down` on the prefix of length `n`, from index `i`. -/
def down : ℕ → priorityQueue α → ℕ → ℕ → Option (priorityQueue α)
  | 0, _, _, _ => none
  | fuel + 1, h, i, n =>
    let j1 := 2 * i + 1
    if j1 ≥ n then some h
    else
      let j2 := j1 + 1
      match (if j2 < n then h.Less j2 j1 else some false) with
      | none => none
      | some c =>
        let j := if c then j2 else j1
        match h.Less j i with
        | none => none
        | some false => some h
        | some true =>
          match h.Swap i j with
          | none => none
          | some h1 => down fuel h1 j n

/-- The function `heap.Push(h, x)`: `h.Push(x); up(h, h.Len()-1)`. -/
def heapPush (h : priorityQueue α) (x : heapItem α) : Option (priorityQueue α) :=
  let h1 := h.Push x
  up h1.Len h1 (h1.Len - 1)

/-- The function `heap.Pop(h)`: `n := h.Len() - 1; h.Swap(0, n); down(h, 0, n); return h.Pop()`.
On an empty queue `Swap` indexes out of range. -/
def heapPop (h : priorityQueue α) : Option (heapItem α × priorityQueue α) :=
  let n := h.Len - 1
  match h.Swap 0 n with
  | none => none
  | some h1 =>
    match down (n + 1) h1 0 n with
    | none => none
    | some h2 => h2.Pop

end heap

section build

variable {α : Type}

/-- One round of the partition loop of `buildFromPoints`, at index `i`; the state is
`(items, storeIndex, vp.Length)`:
`if items[i].Distance(n.Item) <= pivotDist { swap storeIndex, i; storeIndex++; vp.Length++ }`. -/
def partitionStep (Distance : α → α → ℚ) (pivot : α) (pivotDist : ℚ)
    (st : List α × ℕ × ℕ) (i : ℕ) : Option (List α × ℕ × ℕ) :=
  match st.1[i]? with
  | none => none
  | some x =>
    if Distance x pivot ≤ pivotDist then
      match swapAt st.1 st.2.1 i with
      | none => none
      | some items1 => some (items1, st.2.1 + 1, st.2.2 + 1)
    else some st

/-- The loop `for i := 0; i < len(items)-1; i++` of `buildFromPoints`, started with
`storeIndex = 0`; returns the slice, `storeIndex` and `vp.Length` after the loop. -/
def partitionLoop (Distance : α → α → ℚ) (pivot : α) (pivotDist : ℚ)
    (items : List α) (Length : ℕ) : Option (List α × ℕ × ℕ) :=
  (List.range (items.length - 1)).foldlM (partitionStep Distance pivot pivotDist) (items, 0, Length)

/-- The method `VPTree.buildFromPoints`.  The arguments after the fuel are the slice `items`,
the field `vp.Length` and the cursor of `rand.Intn`; the result is the node, the contents of the
caller's slice after the call (the build reorders it in place), `vp.Length` and the cursor.
A call on `items` needs `len(items) + 1` units of fuel. -/
def buildFromPoints (Distance : α → α → ℚ) (rnd : ℕ → ℕ) :
    ℕ → List α → ℕ → ℕ → Option (node α × List α × ℕ × ℕ)
  | 0, _, _, _ => none
  | fuel + 1, items, Length, pos =>
    if items.length = 0 then some (node.nil, items, Length, pos)
    else
      -- idx := rand.Intn(len(items)); n.Item = items[idx]
      let idx := rnd pos % items.length
      match items[idx]?, items[items.length - 1]? with
      | some item, some last =>
        -- items[idx], items = items[len(items)-1], items[:len(items)-1]
        let whole := items.set idx last
        match subslice whole 0 (items.length - 1) with
        | none => none
        | some items1 =>
          if items1.length > 0 then
            let median := items1.length / 2
            match items1[median]? with
            | none => none
            | some m =>
              let pivotDist := Distance m item
              match swapAt items1 median (items1.length - 1) with
              | none => none
              | some items2 =>
                match partitionLoop Distance item pivotDist items2 Length with
                | none => none
                | some (items3, storeIndex, Length1) =>
                  match swapAt items3 (items3.length - 1) storeIndex with
                  | none => none
                  | some items4 =>
                    let median1 := storeIndex
                    match subslice items4 0 median1, subslice items4 median1 items4.length with
                    | some near, some far =>
                      match buildFromPoints Distance rnd fuel near Length1 (pos + 1) with
                      | none => none
                      | some (left, near1, Length2, pos2) =>
                        match buildFromPoints Distance rnd fuel far Length2 pos2 with
                        | none => none
                        | some (right, far1, Length3, pos3) =>
                          some (node.mk item pivotDist left right,
                            near1 ++ far1 ++ whole.drop (items.length - 1), Length3, pos3)
                    | _, _ => none
          else some (node.mk item 0 node.nil node.nil, whole, Length, pos + 1)
      | _, _ => none

/-- The function `New`: `t = &VPTree{}; t.Root = t.buildFromPoints(items)`.  Returns the tree
together with the contents of the caller's slice after the call. -/
def New (Distance : α → α → ℚ) (rnd : ℕ → ℕ) (items : List α) : Option (VPTree α × List α) :=
  match buildFromPoints Distance rnd (items.length + 1) items 0 0 with
  | none => none
  | some (root, items1, Length, _) => some ({ Root := root, Length := Length }, items1)

end build

section searching

variable {α : Type}

/-- The first part of a node visit in `VPTree.search`:
`if dist < *tau { if h.Len() == k { heap.Pop(h) }; heap.Push(h, &heapItem{n.Item, dist});
if h.Len() == k { *tau = h.Top().(*heapItem).Dist } }`. -/
def visit (item : α) (dist : ℚ) (tau : ℚ) (k : ℤ) (h : priorityQueue α) :
    Option (ℚ × priorityQueue α) :=
  if dist < tau then
    match (if (h.Len : ℤ) = k then (heapPop h).map Prod.snd else some h) with
    | none => none
    | some h1 =>
      match heapPush h1 { Item := item, Dist := dist } with
      | none => none
      | some h2 =>
        if (h2.Len : ℤ) = k then
          match h2.Top with
          | none => none
          | some top => some (top.Dist, h2)
        else some (tau, h2)
  else some (tau, h)

/-- The method `VPTree.search`; the state `(*tau, *h)` is passed and returned. -/
def search (Distance : α → α → ℚ) :
    node α → ℚ → α → ℤ → priorityQueue α → Option (ℚ × priorityQueue α)
  | node.nil, tau, _, _, h => some (tau, h)
  | node.mk item threshold left right, tau, target, k, h =>
    let dist := Distance item target
    match visit item dist tau k h with
    | none => none
    | some (tau1, h1) =>
      if left.isNil && right.isNil then some (tau1, h1)
      else if dist < threshold then
        match (if dist - tau1 ≤ threshold then search Distance left tau1 target k h1
               else some (tau1, h1)) with
        | none => none
        | some (tau2, h2) =>
          if dist + tau2 ≥ threshold then search Distance right tau2 target k h2
          else some (tau2, h2)
      else
        match (if dist + tau1 ≥ threshold then search Distance right tau1 target k h1
               else some (tau1, h1)) with
        | none => none
        | some (tau2, h2) =>
          if dist - tau2 ≤ threshold then search Distance left tau2 target k h2
          else some (tau2, h2)

/-- The loop `for h.Len() > 0 { hi := heap.Pop(&h); results = append(results, hi.Item);
distances = append(distances, hi.Dist) }` of `Search`; `h.Len()` units of fuel are enough. -/
def drain : ℕ → priorityQueue α → List α → List ℚ → Option (List α × List ℚ)
  | 0, h, results, distances => if h.Len > 0 then none else some (results, distances)
  | fuel + 1, h, results, distances =>
    if h.Len > 0 then
      match heapPop h with
      | none => none
      | some (hi, h1) => drain fuel h1 (results ++ [hi.Item]) (distances ++ [hi.Dist])
    else some (results, distances)

/-- The loop `for i, j := 0, len(results)-1; i < j; i, j = i+1, j-1` of `Search`, which
swaps `results[i], results[j]` and `distances[i], distances[j]`. -/
def reverseLoop : ℕ → ℕ → ℕ → List α → List ℚ → Option (List α × List ℚ)
  | 0, i, j, results, distances => if i < j then none else some (results, distances)
  | fuel + 1, i, j, results, distances =>
    if i < j then
      match swapAt results i j, swapAt distances i j with
      | some results1, some distances1 => reverseLoop fuel (i + 1) (j - 1) results1 distances1
      | _, _ => none
    else some (results, distances)

/-- The method `VPTree.Search` on a run in which the allocation `make(priorityQueue, 0, k)`
succeeds: the queue starts empty and its capacity has no effect on what it holds.  `SearchCap`
is the method with the allocation. -/
def Search (Distance : α → α → ℚ) (vp : VPTree α) (target : α) (k : ℤ) :
    Option (List α × List ℚ) :=
  if k < 1 then some ([], [])
  else
    match search Distance vp.Root maxFloat64 target k [] with
    | none => none
    | some (_, h) =>
      match drain h.Len h [] [] with
      | none => none
      | some (results, distances) =>
        reverseLoop results.length 0 (results.length - 1) results distances

/-- The constant `math.MaxInt64`, the largest value of an `int` on a 64-bit platform. -/
def maxInt64 : ℤ := 2 ^ 63 - 1

/-- The allocation `make(priorityQueue, 0, k)`: an empty queue with room for `k` entries.
`maxCap` is the largest capacity that the runtime grants; `makeslice` panics (`cap out of
range`) for a negative `k` and for `k` above that bound.  The bound depends on the platform:
it is at most `maxAlloc / 8`, that is `2 ^ 45` on linux/amd64, and below `math.MaxInt64`
everywhere. -/
def makePriorityQueue (maxCap : ℕ) (k : ℤ) : Option (priorityQueue α) :=
  if 0 ≤ k ∧ k ≤ (maxCap : ℤ) then some [] else none

/-- The method `VPTree.Search` with the allocation of the queue:
`if k < 1 { return }; h := make(priorityQueue, 0, k); tau := math.MaxFloat64;
vp.search(vp.Root, &tau, target, k, &h)`, then the loop that empties the queue and the loop
that reverses the two result slices. -/
def SearchCap (Distance : α → α → ℚ) (maxCap : ℕ) (vp : VPTree α) (target : α) (k : ℤ) :
    Option (List α × List ℚ) :=
  if k < 1 then some ([], [])
  else
    match (makePriorityQueue maxCap k : Option (priorityQueue α)) with
    | none => none
    | some h0 =>
      match search Distance vp.Root maxFloat64 target k h0 with
      | none => none
      | some (_, h) =>
        match drain h.Len h [] [] with
        | none => none
        | some (results, distances) =>
          reverseLoop results.length 0 (results.length - 1) results distances

/-- The number of calls of `Distance` made by `VPTree.search`: one per node visited, following
the traversal of `search`. -/
def searchEvals (Distance : α → α → ℚ) :
    node α → ℚ → α → ℤ → priorityQueue α → ℕ
  | node.nil, _, _, _, _ => 0
  | node.mk item threshold left right, tau, target, k, h =>
    let dist := Distance item target
    1 +
    match visit item dist tau k h with
    | none => 0
    | some (tau1, h1) =>
      if left.isNil && right.isNil then 0
      else if dist < threshold then
        (if dist - tau1 ≤ threshold then searchEvals Distance left tau1 target k h1 else 0) +
        match (if dist - tau1 ≤ threshold then search Distance left tau1 target k h1
               else some (tau1, h1)) with
        | none => 0
        | some (tau2, h2) =>
          if dist + tau2 ≥ threshold then searchEvals Distance right tau2 target k h2 else 0
      else
        (if dist + tau1 ≥ threshold then searchEvals Distance right tau1 target k h1 else 0) +
        match (if dist + tau1 ≥ threshold then search Distance right tau1 target k h1
               else some (tau1, h1)) with
        | none => 0
        | some (tau2, h2) =>
          if dist - tau2 ≤ threshold then searchEvals Distance left tau2 target k h2 else 0

/-- The number of calls of `Distance` made by `VPTree.Search`: none when `k < 1`, else those of
the traversal from the root. -/
def SearchEvals (Distance : α → α → ℚ) (vp : VPTree α) (target : α) (k : ℤ) : ℕ :=
  if k < 1 then 0 else searchEvals Distance vp.Root maxFloat64 target k []

/-- The states `(n.Item, *tau, *h)` after each node visit of `VPTree.search`, in the order of
the visits: one entry per node visited, following the traversal of `search`. -/
def searchTrace (Distance : α → α → ℚ) :
    node α → ℚ → α → ℤ → priorityQueue α → List (α × ℚ × priorityQueue α)
  | node.nil, _, _, _, _ => []
  | node.mk item threshold left right, tau, target, k, h =>
    let dist := Distance item target
    match visit item dist tau k h with
    | none => []
    | some (tau1, h1) =>
      (item, tau1, h1) ::
      if left.isNil && right.isNil then []
      else if dist < threshold then
        (if dist - tau1 ≤ threshold then searchTrace Distance left tau1 target k h1 else []) ++
        match (if dist - tau1 ≤ threshold then search Distance left tau1 target k h1
               else some (tau1, h1)) with
        | none => []
        | some (tau2, h2) =>
          if dist + tau2 ≥ threshold then searchTrace Distance right tau2 target k h2 else []
      else
        (if dist + tau1 ≥ threshold then searchTrace Distance right tau1 target k h1 else []) ++
        match (if dist + tau1 ≥ threshold then search Distance right tau1 target k h1
               else some (tau1, h1)) with
        | none => []
        | some (tau2, h2) =>
          if dist - tau2 ≤ threshold then searchTrace Distance left tau2 target k h2 else []

/-- The states `(n.Item, *tau, *h)` after each node visit of a call of `VPTree.Search`: none
when `k < 1`, else those of the traversal from the root, started with `tau = math.MaxFloat64`
and an empty queue. -/
def SearchTrace (Distance : α → α → ℚ) (vp : VPTree α) (target : α) (k : ℤ) :
    List (α × ℚ × priorityQueue α) :=
  if k < 1 then [] else searchTrace Distance vp.Root maxFloat64 target k []

end searching

end vptree

/-!
The function `CleanHash` of `pkg/logic.go` (package `potash`).  A Go `string` is a sequence of
bytes; indexing and slicing count bytes.
-/

namespace potash

/-- A Go `string`: its bytes. -/
abbrev GoString := List (Fin 256)

/-- The string `"T"`. -/
def strT : GoString := [84]

/-- The byte `'\n'`. -/
def newline : Fin 256 := 10

/-- The function `strings.HasPrefix(s, p)`: `len(s) >= len(p) && s[:len(p)] == p`. -/
def HasPrefix (s p : GoString) : Bool :=
  decide (s.length ≥ p.length) && decide (s.take p.length = p)

/-- The call `strings.Replace(s, "\n", "", -1)`: every byte `'\n'` is removed. -/
def removeNewlines (s : GoString) : GoString :=
  s.filter (fun b => decide (b ≠ newline))

/-- The function `CleanHash`: `if strings.HasPrefix(hash, "T") { hash = hash[2:] }`, then
`hash = strings.Replace(hash, "\n", "", -1)`.  The slice expression `hash[2:]` panics when
`len(hash) < 2`. -/
def CleanHash (hash : GoString) : Option GoString :=
  match (if HasPrefix hash strT then vptree.subslice hash 2 hash.length else some hash) with
  | none => none
  | some hash1 => some (removeNewlines hash1)

end potash

namespace vptree

section specification

variable {α : Type}

/-- The `Dist` field of `pq[i]` (0 when `i` is out of range). -/
def keyAt (pq : priorityQueue α) (i : ℕ) : ℚ :=
  match pq[i]? with
  | some x => x.Dist
  | none => 0

/-- The max-heap order of `container/heap` on the first `n` entries: no entry is larger than
its parent, the entry at index `(i - 1) / 2`. -/
def IsHeapUpTo (pq : priorityQueue α) (n : ℕ) : Prop :=
  ∀ i, 0 < i → i < n → keyAt pq i ≤ keyAt pq ((i - 1) / 2)

/-- The max-heap order on the whole queue. -/
def IsHeap (pq : priorityQueue α) : Prop := IsHeapUpTo pq pq.length

/-- The order that `up` restores: the heap order can fail only between `j` and its parent. -/
def UpInv (pq : priorityQueue α) (j : ℕ) : Prop :=
  (∀ c, 0 < c → c < pq.length → c ≠ j → keyAt pq c ≤ keyAt pq ((c - 1) / 2)) ∧
  (∀ c, 0 < c → c < pq.length → (c - 1) / 2 = j → 0 < j →
    keyAt pq c ≤ keyAt pq ((j - 1) / 2))

/-- The order that `down` restores on the first `n` entries: the heap order can fail only
between `i` and its children. -/
def DownInv (pq : priorityQueue α) (i n : ℕ) : Prop :=
  (∀ c, 0 < c → c < n → (c - 1) / 2 ≠ i → keyAt pq c ≤ keyAt pq ((c - 1) / 2)) ∧
  (∀ c, 0 < c → c < n → (c - 1) / 2 = i → 0 < i →
    keyAt pq c ≤ keyAt pq ((i - 1) / 2))

/-- The items stored in the nodes of a tree, the node's own item first. -/
def node.items : node α → List α
  | node.nil => []
  | node.mk item _ left right => item :: (left.items ++ right.items)

/-- A property of `(Item, Threshold, Left, Right)` that holds at every node of a tree. -/
def node.All (P : α → ℚ → node α → node α → Prop) : node α → Prop
  | node.nil => True
  | node.mk item threshold left right =>
    P item threshold left right ∧ left.All P ∧ right.All P

/-- The value `*tau` has in `search` for a queue `h`: the largest `Dist` of the queue once it
holds `k` entries, `math.MaxFloat64` before. -/
def tauOf (k : ℤ) (h : priorityQueue α) : ℚ :=
  if (h.length : ℤ) = k then keyAt h 0 else maxFloat64

/-- The heap entry `&heapItem{x, x.Distance(target)}` that `search` pushes for the item `x`. -/
def entry (Distance : α → α → ℚ) (target : α) (x : α) : heapItem α :=
  { Item := x, Dist := Distance x target }

/-- The state `(*tau, *h)` of a search for the `k` nearest items to `target` is coherent. -/
structure HeapOK (Distance : α → α → ℚ) (target : α) (k : ℤ) (tau : ℚ)
    (h : priorityQueue α) : Prop where
  heap : IsHeap h
  len : (h.length : ℤ) ≤ k
  tau_eq : tau = tauOf k h
  dist : ∀ e ∈ h, e.Dist = Distance e.Item target
  lt : ∀ e ∈ h, e.Dist < maxFloat64

/-- A reason `G tau x` to leave the item `x` out of the queue when the radius is `tau`:
it survives a smaller radius, and it holds of every item at distance `tau` or more. -/
structure Discard (Distance : α → α → ℚ) (target : α) (G : ℚ → α → Prop) : Prop where
  mono : ∀ t t1 x, t1 ≤ t → G t x → G t1 x
  le : ∀ t x, t ≤ Distance x target → G t x

/-- Every subtree that `search` can skip at a node holds only items that may be left out. -/
def PruneOK (Distance : α → α → ℚ) (target : α) (G : ℚ → α → Prop) : node α → Prop :=
  node.All (fun item threshold left right =>
    (∀ tau, ¬ (Distance item target - tau ≤ threshold) → ∀ x ∈ left.items, G tau x) ∧
    (∀ tau, ¬ (Distance item target + tau ≥ threshold) → ∀ x ∈ right.items, G tau x))

/-- The state `(tau1, h1)` can follow the state `(tau, h)` after `search` has dealt with
`items`: it is coherent, the radius did not grow, the entries of the new queue and the entries
left out are those of the old queue and of `items`, and a full queue stays full. -/
def Reach (Distance : α → α → ℚ) (target : α) (k : ℤ) (G : ℚ → α → Prop)
    (items : List α) (tau : ℚ) (h : priorityQueue α) (tau1 : ℚ) (h1 : priorityQueue α) : Prop :=
  ∃ disc, HeapOK Distance target k tau1 h1 ∧ tau1 ≤ tau ∧
    (h1 ++ disc).Perm (h ++ items.map (entry Distance target)) ∧
    (∀ e ∈ disc, G tau1 e.Item) ∧ ((h.length : ℤ) = k → (h1.length : ℤ) = k)

/-- The outcome `res` of a part of `search` that deals with `items` from the state `(tau, h)`:
it returns, and the state it returns can follow `(tau, h)`. -/
def SearchPost (Distance : α → α → ℚ) (target : α) (k : ℤ) (G : ℚ → α → Prop)
    (res : Option (ℚ × priorityQueue α)) (items : List α) (tau : ℚ) (h : priorityQueue α) :
    Prop :=
  ∃ tau1 h1, res = some (tau1, h1) ∧ Reach Distance target k G items tau h tau1 h1

/-- The state `b` of `(*tau, *h)` can follow the state `a` in a search, whatever is left out
in between. -/
def Follows (Distance : α → α → ℚ) (target : α) (k : ℤ) (a b : ℚ × priorityQueue α) : Prop :=
  ∃ items, Reach Distance target k (fun _ _ => True) items a.1 a.2 b.1 b.2

/-- The list `T` of the states after each node visit of a part of `search` that starts in the
state `s0` and ends in the state `s1`: the end state and the state after every visit account
for the items visited up to there, and every state can be followed by the later ones and by
the end state. -/
structure TraceOK (Distance : α → α → ℚ) (target : α) (k : ℤ) (s0 : ℚ × priorityQueue α)
    (T : List (α × ℚ × priorityQueue α)) (s1 : ℚ × priorityQueue α) : Prop where
  whole : Reach Distance target k (fun _ _ => True) (T.map Prod.fst) s0.1 s0.2 s1.1 s1.2
  prefixes : ∀ T1 s T2, T = T1 ++ s :: T2 →
    Reach Distance target k (fun _ _ => True) ((T1 ++ [s]).map Prod.fst) s0.1 s0.2 s.2.1 s.2.2
  toEnd : ∀ s ∈ T, Follows Distance target k s.2 s1
  chain : T.Pairwise (fun a b => Follows Distance target k a.2 b.2)

/-- What `buildFromPoints` establishes at a node: the items of the `Left` subtree are at
distance at most `Threshold` from the node's item, those of the `Right` subtree at distance at
least `Threshold`, and the node is either a leaf with `Threshold` 0, or its `Right` subtree
holds the median candidate `m`, whose distance to the node's item is `Threshold`, and otherwise
only items farther away than `Threshold`. -/
def BuiltNode (Distance : α → α → ℚ) (item : α) (threshold : ℚ) (left right : node α) : Prop :=
  (∀ x ∈ left.items, Distance x item ≤ threshold) ∧
  (∀ x ∈ right.items, threshold ≤ Distance x item) ∧
  ((left = node.nil ∧ right = node.nil ∧ threshold = 0) ∨
    ∃ m rest, right.items.Perm (m :: rest) ∧ threshold = Distance m item ∧
      ∀ x ∈ rest, threshold < Distance x item)

/-- The requirements on a metric listed in the source: non-negative, zero exactly between an
item and itself, symmetric, triangle inequality. -/
structure IsMetric (Distance : α → α → ℚ) : Prop where
  nonneg : ∀ x y, 0 ≤ Distance x y
  eq_zero_iff : ∀ x y, Distance x y = 0 ↔ x = y
  symm : ∀ x y, Distance x y = Distance y x
  triangle : ∀ x y z, Distance x z ≤ Distance x y + Distance y z

/-- The exhaustive answer: the `min(k, len(items))` smallest values of `Distance(item, target)`
over all the items, in non-decreasing order. -/
def bruteForce (Distance : α → α → ℚ) (items : List α) (target : α) (k : ℕ) : List ℚ :=
  ((items.map (fun x => Distance x target)).insertionSort (· ≤ ·)).take (min k items.length)

/-- The `k` smallest (or all, if fewer) of the values of `Distance(item, target)` that are
below `math.MaxFloat64`, in non-decreasing order. -/
def nearestBelowMax (Distance : α → α → ℚ) (items : List α) (target : α) (k : ℕ) : List ℚ :=
  (((items.map (fun x => Distance x target)).filter (fun d => d < maxFloat64)).insertionSort
    (· ≤ ·)).take k

/-- The number of nodes of a tree. -/
def node.count : node α → ℕ
  | node.nil => 0
  | node.mk _ _ left right => 1 + left.count + right.count

/-- The distance of the one-dimensional scenario: the absolute difference of two positions. -/
def absDist (a b : ℚ) : ℚ := |a - b|

/-- A metric on two items whose only non-zero distance is `math.MaxFloat64`. -/
def discreteMax (a b : Bool) : ℚ := if a = b then 0 else maxFloat64

/-- A distance with negative values on four items (not a metric): item 1 is at distance
`-(3/4) * math.MaxFloat64` and item 2 at distance `-math.MaxFloat64` from item 0, and item 0 is
at distance `math.MaxFloat64 / 2` from item 3. -/
def signedDist (a b : Fin 4) : ℚ :=
  if a = 0 ∧ b = 3 then maxFloat64 / 2
  else if a = 1 ∧ b = 0 then -(3 / 4) * maxFloat64
  else if a = 2 ∧ b = 0 then -maxFloat64
  else 0

/-- One call made by a client of the queue: `heap.Push(h, x)` or `heap.Pop(h)`. -/
inductive heapOp (α : Type) where
  | push (x : heapItem α) : heapOp α
  | pop : heapOp α

/-- The queue left by a sequence of `heap.Push` and `heap.Pop` calls made in order on `h`;
`none` when one of the calls panics. -/
def runOps : List (heapOp α) → priorityQueue α → Option (priorityQueue α)
  | [], h => some h
  | heapOp.push x :: ops, h =>
    match heapPush h x with
    | none => none
    | some h1 => runOps ops h1
  | heapOp.pop :: ops, h =>
    match heapPop h with
    | none => none
    | some (_, h1) => runOps ops h1

/-- The entry with the same `Dist` whose `Item` is replaced by its image under `g`. -/
def heapItem.relabel {β : Type} (g : α → β) (e : heapItem α) : heapItem β :=
  { Item := g e.Item, Dist := e.Dist }

/-- The call with the items of its entry replaced by their images under `g`. -/
def heapOp.relabel {β : Type} (g : α → β) : heapOp α → heapOp β
  | heapOp.push x => heapOp.push (x.relabel g)
  | heapOp.pop => heapOp.pop

end specification

section sliceLemmas
variable {α : Type}

theorem cons_set_perm (t : List α) (j : ℕ) (a : α) (h : j < t.length) :
    (t[j] :: t.set j a).Perm (a :: t) := by
  induction t generalizing j with
  | nil => simp at h
  | cons b u ih =>
    cases j with
    | zero => simpa using List.Perm.swap a b u
    | succ j =>
      have h1 : j < u.length := by simpa using h
      simp only [List.getElem_cons_succ, List.set_cons_succ]
      exact (List.Perm.swap b u[j] _).trans (((ih j h1).cons b).trans (List.Perm.swap a b u))

theorem set_set_perm (s : List α) (i j : ℕ) (hi : i < s.length) (hj : j < s.length) :
    ((s.set i s[j]).set j s[i]).Perm s := by
  induction s generalizing i j with
  | nil => simp at hi
  | cons a t ih =>
    cases i with
    | zero =>
      cases j with
      | zero => simp
      | succ j =>
        have h1 : j < t.length := by simpa using hj
        simpa using cons_set_perm t j a h1
    | succ i =>
      have h0 : i < t.length := by simpa using hi
      cases j with
      | zero =>
        simp only [List.getElem_cons_zero, List.set_cons_succ, List.set_cons_zero,
          List.getElem_cons_succ]
        exact cons_set_perm t i a h0
      | succ j =>
        have h1 : j < t.length := by simpa using hj
        simpa using ih i j h0 h1

theorem swapAt_eq_some (s : List α) (i j : ℕ) (hi : i < s.length) (hj : j < s.length) :
    swapAt s i j = some ((s.set i s[j]).set j s[i]) := by
  simp [swapAt, List.getElem?_eq_getElem hi, List.getElem?_eq_getElem hj]

theorem swapAt_some_iff {s s1 : List α} {i j : ℕ} :
    swapAt s i j = some s1 ↔
      ∃ (hi : i < s.length) (hj : j < s.length), s1 = (s.set i s[j]).set j s[i] := by
  constructor
  · intro h
    by_cases hi : i < s.length
    · by_cases hj : j < s.length
      · rw [swapAt_eq_some s i j hi hj] at h
        exact ⟨hi, hj, (Option.some.inj h).symm⟩
      · simp [swapAt, List.getElem?_eq_none (not_lt.mp hj)] at h
    · simp [swapAt, List.getElem?_eq_none (not_lt.mp hi)] at h
  · rintro ⟨hi, hj, rfl⟩
    exact swapAt_eq_some s i j hi hj

theorem swapAt_perm {s s1 : List α} {i j : ℕ} (h : swapAt s i j = some s1) : s1.Perm s := by
  obtain ⟨hi, hj, rfl⟩ := swapAt_some_iff.mp h
  exact set_set_perm s i j hi hj

theorem swapAt_length {s s1 : List α} {i j : ℕ} (h : swapAt s i j = some s1) :
    s1.length = s.length := by
  obtain ⟨hi, hj, rfl⟩ := swapAt_some_iff.mp h
  simp

theorem swapAt_getElem? {s s1 : List α} {i j : ℕ} (h : swapAt s i j = some s1) (n : ℕ) :
    s1[n]? = if n = j then s[i]? else if n = i then s[j]? else s[n]? := by
  obtain ⟨hi, hj, rfl⟩ := swapAt_some_iff.mp h
  by_cases h1 : n = j
  · subst h1
    simp [List.getElem?_set, hi, hj]
  · by_cases h2 : n = i
    · subst h2
      simp [List.getElem?_set, hi, hj, h1, Ne.symm h1]
    · simp [List.getElem?_set, h1, h2, Ne.symm h1, Ne.symm h2]

theorem swapAt_self (s : List α) (i : ℕ) (hi : i < s.length) : swapAt s i i = some s := by
  rw [swapAt_eq_some s i i hi hi]
  congr 1
  apply List.ext_getElem?
  intro n
  by_cases h : i = n
  · subst h
    simp [List.getElem?_set, hi, List.getElem?_eq_getElem hi]
  · simp [List.getElem?_set, h]

theorem subslice_eq_some (s : List α) (lo hi : ℕ) (h1 : lo ≤ hi) (h2 : hi ≤ s.length) :
    subslice s lo hi = some ((s.take hi).drop lo) := by
  simp [subslice, h1, h2]

end sliceLemmas

section heapLemmas
variable {α : Type}

theorem keyAt_of_lt (pq : priorityQueue α) (i : ℕ) (h : i < pq.length) :
    keyAt pq i = pq[i].Dist := by
  simp [keyAt, List.getElem?_eq_getElem h]

theorem keyAt_swapAt {pq pq1 : priorityQueue α} {i j : ℕ} (h : swapAt pq i j = some pq1)
    (n : ℕ) : keyAt pq1 n = if n = j then keyAt pq i else if n = i then keyAt pq j
      else keyAt pq n := by
  unfold keyAt
  rw [swapAt_getElem? h n]
  split_ifs <;> rfl

theorem Less_eq (pq : priorityQueue α) (i j : ℕ) (hi : i < pq.length) (hj : j < pq.length) :
    pq.Less i j = some (decide (keyAt pq i > keyAt pq j)) := by
  simp [priorityQueue.Less, keyAt, List.getElem?_eq_getElem hi, List.getElem?_eq_getElem hj]

theorem up_spec (fuel : ℕ) (pq : priorityQueue α) (j : ℕ) (hj : j < pq.length)
    (hf : j < fuel) (inv : UpInv pq j) :
    ∃ pq1, up fuel pq j = some pq1 ∧ pq1.Perm pq ∧ IsHeap pq1 := by
  induction fuel generalizing pq j with
  | zero => omega
  | succ fuel ih =>
    unfold up
    by_cases h0 : (j - 1) / 2 = j
    · simp only [h0, if_true]
      refine ⟨pq, rfl, List.Perm.refl _, ?_⟩
      intro c hc1 hc2
      exact inv.1 c hc1 hc2 (by omega)
    · have hi : (j - 1) / 2 < pq.length := by omega
      simp only [h0, if_false]
      rw [Less_eq pq j _ hj hi]
      by_cases hlt : keyAt pq j > keyAt pq ((j - 1) / 2)
      · simp only [hlt, decide_True]
        obtain ⟨pq1, hs⟩ : ∃ pq1, swapAt pq ((j - 1) / 2) j = some pq1 :=
          ⟨_, swapAt_eq_some pq _ j hi hj⟩
        have hlen := swapAt_length hs
        simp only [priorityQueue.Swap, hs]
        have key := fun n => keyAt_swapAt hs n
        have inv1 : UpInv pq1 ((j - 1) / 2) := by
          constructor
          · intro c hc1 hc2 hc3
            rw [hlen] at hc2
            rw [key c, key ((c - 1) / 2)]
            by_cases e1 : c = j
            · subst e1
              simp only [if_true, h0, if_false]
              exact le_of_lt hlt
            · simp only [e1, hc3, if_false]
              by_cases e2 : (c - 1) / 2 = j
              · simp only [e2, if_true]
                exact inv.2 c hc1 hc2 e2 (by omega)
              · simp only [e2, if_false]
                by_cases e3 : (c - 1) / 2 = (j - 1) / 2
                · simp only [e3, if_true]
                  have := inv.1 c hc1 hc2 e1
                  rw [e3] at this
                  exact le_trans this (le_of_lt hlt)
                · simp only [e3, if_false]
                  exact inv.1 c hc1 hc2 e1
          · intro c hc1 hc2 hc3 hc4
            rw [hlen] at hc2
            rw [key c, key (((j - 1) / 2 - 1) / 2)]
            have e4 : ((j - 1) / 2 - 1) / 2 ≠ j := by omega
            have e5 : ((j - 1) / 2 - 1) / 2 ≠ (j - 1) / 2 := by omega
            have e6 : c ≠ (j - 1) / 2 := by omega
            simp only [e4, e5, e6, if_false]
            have hp := inv.1 ((j - 1) / 2) hc4 hi h0
            by_cases e1 : c = j
            · simp only [e1, if_true]
              exact hp
            · simp only [e1, if_false]
              have := inv.1 c hc1 hc2 e1
              rw [hc3] at this
              exact le_trans this hp
        obtain ⟨pq2, h2, hp2, hh2⟩ := ih pq1 ((j - 1) / 2) (by omega) (by omega) inv1
        exact ⟨pq2, h2, hp2.trans (swapAt_perm hs), hh2⟩
      · simp only [hlt, decide_False]
        refine ⟨pq, rfl, List.Perm.refl _, ?_⟩
        intro c hc1 hc2
        by_cases e1 : c = j
        · subst e1
          exact not_lt.mp hlt
        · exact inv.1 c hc1 hc2 e1

theorem down_spec (fuel : ℕ) (pq : priorityQueue α) (i n : ℕ) (hn : n ≤ pq.length)
    (hin : i ≤ n) (hf : n < i + fuel) (inv : DownInv pq i n) :
    ∃ pq1, down fuel pq i n = some pq1 ∧ pq1.Perm pq ∧ IsHeapUpTo pq1 n ∧
      ∀ m, n ≤ m → pq1[m]? = pq[m]? := by
  induction fuel generalizing pq i with
  | zero =>
    exfalso
    omega
  | succ fuel ih =>
    unfold down
    by_cases h0 : 2 * i + 1 ≥ n
    · simp only [h0, if_true]
      refine ⟨pq, rfl, List.Perm.refl _, ?_, fun _ _ => rfl⟩
      intro c hc1 hc2
      exact inv.1 c hc1 hc2 (by omega)
    · simp only [h0, if_false]
      have hj1 : 2 * i + 1 < pq.length := by omega
      have hi : i < pq.length := by omega
      -- the larger child
      obtain ⟨j, hjdef, hjcases, hjmax⟩ : ∃ j,
          (if 2 * i + 1 + 1 < n then pq.Less (2 * i + 1 + 1) (2 * i + 1) else some false) =
            some (decide (j = 2 * i + 1 + 1)) ∧
          (j = 2 * i + 1 ∨ (j = 2 * i + 1 + 1 ∧ 2 * i + 1 + 1 < n)) ∧
          (∀ c, 0 < c → c < n → (c - 1) / 2 = i → keyAt pq c ≤ keyAt pq j) := by
        by_cases h2 : 2 * i + 1 + 1 < n
        · have hj2 : 2 * i + 1 + 1 < pq.length := by omega
          by_cases hlt : keyAt pq (2 * i + 1 + 1) > keyAt pq (2 * i + 1)
          · refine ⟨2 * i + 1 + 1, ?_, Or.inr ⟨rfl, h2⟩, ?_⟩
            · simp [h2, Less_eq pq _ _ hj2 hj1, hlt]
            · intro c hc1 hc2 hc3
              have : c = 2 * i + 1 ∨ c = 2 * i + 1 + 1 := by omega
              rcases this with rfl | rfl
              · exact le_of_lt hlt
              · exact le_refl _
          · refine ⟨2 * i + 1, ?_, Or.inl rfl, ?_⟩
            · simp [h2, Less_eq pq _ _ hj2 hj1, hlt]
            · intro c hc1 hc2 hc3
              have : c = 2 * i + 1 ∨ c = 2 * i + 1 + 1 := by omega
              rcases this with rfl | rfl
              · exact le_refl _
              · exact not_lt.mp hlt
        · refine ⟨2 * i + 1, ?_, Or.inl rfl, ?_⟩
          · simp [h2]
          · intro c hc1 hc2 hc3
            have : c = 2 * i + 1 := by omega
            rw [this]
      have hjn : j < n := by omega
      have hjl : j < pq.length := by omega
      have hjpar : (j - 1) / 2 = i := by omega
      have hjpos : 0 < j := by omega
      have hjsel : (if decide (j = 2 * i + 1 + 1) = true then 2 * i + 1 + 1 else 2 * i + 1) = j := by
        rcases hjcases with h | ⟨h, _⟩ <;> simp [h]
      simp only [hjdef, hjsel]
      rw [Less_eq pq j i hjl hi]
      by_cases hlt : keyAt pq j > keyAt pq i
      · simp only [hlt, decide_True]
        obtain ⟨pq1, hs⟩ : ∃ pq1, swapAt pq i j = some pq1 := ⟨_, swapAt_eq_some pq i j hi hjl⟩
        have hlen := swapAt_length hs
        simp only [priorityQueue.Swap, hs]
        have hij : i ≠ j := by omega
        have k_j : keyAt pq1 j = keyAt pq i := by
          rw [keyAt_swapAt hs]; simp
        have k_i : keyAt pq1 i = keyAt pq j := by
          rw [keyAt_swapAt hs]; simp [hij]
        have k_o : ∀ m, m ≠ i → m ≠ j → keyAt pq1 m = keyAt pq m := by
          intro m h1 h2
          rw [keyAt_swapAt hs]; simp [h1, h2]
        have inv1 : DownInv pq1 j n := by
          constructor
          · intro c hc1 hc2 hc3
            by_cases e1 : c = j
            · rw [e1, hjpar, k_j, k_i]
              exact le_of_lt hlt
            · by_cases e2 : c = i
              · rw [e2, k_i, k_o _ (by omega) (by omega)]
                exact inv.2 j hjpos hjn hjpar (by omega)
              · rw [k_o c e2 e1]
                by_cases e3 : (c - 1) / 2 = i
                · rw [e3, k_i]
                  exact hjmax c hc1 hc2 e3
                · rw [k_o _ e3 hc3]
                  exact inv.1 c hc1 hc2 e3
          · intro c hc1 hc2 hc3 _
            rw [hjpar, k_i, k_o c (by omega) (by omega)]
            have := inv.1 c hc1 hc2 (by omega)
            rw [hc3] at this
            exact this
        obtain ⟨pq2, h2, hp2, hh2, hfix⟩ := ih pq1 j (by omega) (by omega) (by omega) inv1
        refine ⟨pq2, h2, hp2.trans (swapAt_perm hs), hh2, ?_⟩
        intro m hm
        rw [hfix m hm, swapAt_getElem? hs m]
        have e1 : m ≠ j := by omega
        have e2 : m ≠ i := by omega
        simp [e1, e2]
      · simp only [hlt, decide_False]
        refine ⟨pq, rfl, List.Perm.refl _, ?_, fun _ _ => rfl⟩
        intro c hc1 hc2
        by_cases e1 : (c - 1) / 2 = i
        · rw [e1]
          exact le_trans (hjmax c hc1 hc2 e1) (not_lt.mp hlt)
        · exact inv.1 c hc1 hc2 e1

theorem keyAt_append_left (pq l : priorityQueue α) (c : ℕ) (h : c < pq.length) :
    keyAt (pq ++ l) c = keyAt pq c := by
  simp [keyAt, List.getElem?_append_left h]

theorem keyAt_take (pq : priorityQueue α) (n c : ℕ) (h : c < n) :
    keyAt (pq.take n) c = keyAt pq c := by
  simp [keyAt, List.getElem?_take, h]

theorem IsHeap.root_max {pq : priorityQueue α} (hp : IsHeap pq) (c : ℕ) (hc : c < pq.length) :
    keyAt pq c ≤ keyAt pq 0 := by
  induction c using Nat.strong_induction_on with
  | _ c ih =>
    by_cases h0 : c = 0
    · rw [h0]
    · exact le_trans (hp c (by omega) hc) (ih ((c - 1) / 2) (by omega) (by omega))

theorem IsHeap.nil : IsHeap ([] : priorityQueue α) := by
  intro c _ hc
  simp at hc

theorem IsHeap.le_top {pq : priorityQueue α} (hp : IsHeap pq) {m y : heapItem α}
    (hm : pq[0]? = some m) (hy : y ∈ pq) : y.Dist ≤ m.Dist := by
  obtain ⟨c, hc, rfl⟩ := List.getElem_of_mem hy
  have := hp.root_max c hc
  rw [keyAt_of_lt pq c hc] at this
  simpa [keyAt, hm] using this

theorem heapPush_spec (pq : priorityQueue α) (x : heapItem α) (hp : IsHeap pq) :
    ∃ pq1, heapPush pq x = some pq1 ∧ pq1.Perm (x :: pq) ∧ IsHeap pq1 := by
  unfold heapPush priorityQueue.Push priorityQueue.Len
  have inv : UpInv (pq ++ [x]) ((pq ++ [x]).length - 1) := by
    constructor
    · intro c hc1 hc2 hc3
      simp only [List.length_append, List.length_singleton] at hc2 hc3
      rw [keyAt_append_left _ _ c (by omega), keyAt_append_left _ _ _ (by omega)]
      exact hp c hc1 (by omega)
    · intro c hc1 hc2 hc3 _
      simp only [List.length_append, List.length_singleton] at hc2 hc3
      omega
  obtain ⟨pq1, h1, h2, h3⟩ := up_spec (pq ++ [x]).length (pq ++ [x]) ((pq ++ [x]).length - 1)
    (by simp) (by simp) inv
  refine ⟨pq1, h1, h2.trans ?_, h3⟩
  simp

theorem heapPop_spec (pq : priorityQueue α) (hp : IsHeap pq) (hne : pq ≠ []) :
    ∃ m pq1, heapPop pq = some (m, pq1) ∧ pq[0]? = some m ∧ pq.Perm (m :: pq1) ∧
      IsHeap pq1 ∧ ∀ y ∈ pq1, y.Dist ≤ m.Dist := by
  have hpos : 0 < pq.length := List.length_pos.mpr hne
  unfold heapPop priorityQueue.Len priorityQueue.Swap
  obtain ⟨pq1, hs⟩ : ∃ pq1, swapAt pq 0 (pq.length - 1) = some pq1 :=
    ⟨_, swapAt_eq_some pq 0 _ hpos (by omega)⟩
  have hlen := swapAt_length hs
  have inv : DownInv pq1 0 (pq.length - 1) := by
    constructor
    · intro c hc1 hc2 hc3
      rw [keyAt_swapAt hs, keyAt_swapAt hs]
      have e1 : c ≠ pq.length - 1 := by omega
      have e2 : c ≠ 0 := by omega
      have e3 : (c - 1) / 2 ≠ pq.length - 1 := by omega
      simp only [e1, e2, e3, hc3, if_false]
      exact hp c hc1 (by omega)
    · intro c _ _ _ h
      omega
  obtain ⟨pq2, h2, hperm, hheap, hfix⟩ :=
    down_spec (pq.length - 1 + 1) pq1 0 (pq.length - 1) (by omega) (by omega) (by omega) inv
  have hlen2 : pq2.length = pq.length := by rw [hperm.length_eq, hlen]
  have hlast : pq2[pq.length - 1]? = pq[0]? := by
    rw [hfix _ (le_refl _), swapAt_getElem? hs]
    simp
  have h0 : pq[0]? = some pq[0] := List.getElem?_eq_getElem hpos
  simp only [hs, h2, priorityQueue.Pop, hlen2, hlast, h0]
  refine ⟨pq[0], pq2.take (pq.length - 1), rfl, rfl, ?_, ?_, ?_⟩
  · have hsplit : pq2 = pq2.take (pq.length - 1) ++ [pq[0]] := by
      have h3 : pq2.drop (pq.length - 1) = [pq[0]] := by
        apply List.ext_getElem?
        intro n
        rw [List.getElem?_drop]
        cases n with
        | zero => simpa [h0] using hlast
        | succ n => simp [List.getElem?_eq_none, hlen2]; omega
      conv_lhs => rw [← List.take_append_drop (pq.length - 1) pq2, h3]
    have hp2 : pq2.Perm pq := hperm.trans (swapAt_perm hs)
    have : (pq2.take (pq.length - 1) ++ [pq[0]]).Perm pq := by rw [← hsplit]; exact hp2
    exact this.symm.trans (by simp)
  · intro c hc1 hc2
    simp only [List.length_take, hlen2] at hc2
    rw [keyAt_take _ _ _ (by omega), keyAt_take _ _ _ (by omega)]
    exact hheap c hc1 (by omega)
  · intro y hy
    have hy2 : y ∈ pq := (hperm.trans (swapAt_perm hs)).subset (List.mem_of_mem_take hy)
    exact hp.le_top h0 hy2

end heapLemmas

section drainLemmas
variable {α : Type}

theorem drain_spec (fuel : ℕ) (pq : priorityQueue α) (hp : IsHeap pq) (hf : pq.length ≤ fuel)
    (results : List α) (distances : List ℚ) :
    ∃ out : List (heapItem α),
      drain fuel pq results distances =
        some (results ++ out.map heapItem.Item, distances ++ out.map heapItem.Dist) ∧
      out.Perm pq ∧ out.Pairwise (fun a b => b.Dist ≤ a.Dist) := by
  induction fuel generalizing pq results distances with
  | zero =>
    have : pq = [] := List.length_eq_zero.mp (by omega)
    subst this
    exact ⟨[], by simp [drain, priorityQueue.Len], List.Perm.refl _, List.Pairwise.nil⟩
  | succ fuel ih =>
    unfold drain
    by_cases hne : pq = []
    · subst hne
      exact ⟨[], by simp [priorityQueue.Len], List.Perm.refl _, List.Pairwise.nil⟩
    · have hpos : 0 < pq.length := List.length_pos.mpr hne
      obtain ⟨m, pq1, h1, _, hperm, hheap, hmax⟩ := heapPop_spec pq hp hne
      have hlen : pq1.length ≤ fuel := by
        have := hperm.length_eq
        simp only [List.length_cons] at this
        omega
      obtain ⟨out, h2, hp2, hs2⟩ := ih pq1 hheap hlen (results ++ [m.Item]) (distances ++ [m.Dist])
      refine ⟨m :: out, ?_, ?_, ?_⟩
      · simp only [priorityQueue.Len, hpos, if_true, h1, h2]
        simp
      · exact (hp2.cons m).trans hperm.symm
      · exact List.Pairwise.cons (fun y hy => hmax y (hp2.subset hy)) hs2

theorem reverseLoop_spec (fuel i j : ℕ) (results : List α) (distances : List ℚ)
    (hr : i < j → j < results.length) (hd : i < j → j < distances.length)
    (hf : j ≤ i + 2 * fuel) :
    ∃ results1 distances1, reverseLoop fuel i j results distances = some (results1, distances1) ∧
      (∀ m, results1[m]? = if i ≤ m ∧ m ≤ j then results[i + j - m]? else results[m]?) ∧
      (∀ m, distances1[m]? = if i ≤ m ∧ m ≤ j then distances[i + j - m]? else distances[m]?) := by
  induction fuel generalizing i j results distances with
  | zero =>
    have hij : ¬ i < j := by omega
    refine ⟨results, distances, by simp [reverseLoop, hij], ?_, ?_⟩ <;>
    · intro m
      split_ifs with h
      · have : i + j - m = m := by omega
        rw [this]
      · rfl
  | succ fuel ih =>
    unfold reverseLoop
    by_cases hij : i < j
    · have hjr := hr hij
      have hjd := hd hij
      obtain ⟨r1, hr1⟩ : ∃ r1, swapAt results i j = some r1 :=
        ⟨_, swapAt_eq_some results i j (by omega) hjr⟩
      obtain ⟨d1, hd1⟩ : ∃ d1, swapAt distances i j = some d1 :=
        ⟨_, swapAt_eq_some distances i j (by omega) hjd⟩
      obtain ⟨r2, d2, h2, hr2, hd2⟩ := ih (i + 1) (j - 1) r1 d1
        (fun _ => by rw [swapAt_length hr1]; omega) (fun _ => by rw [swapAt_length hd1]; omega)
        (by omega)
      refine ⟨r2, d2, by simp only [hij, if_true, hr1, hd1, h2], ?_, ?_⟩
      · intro m
        rw [hr2 m]
        by_cases c1 : i + 1 ≤ m ∧ m ≤ j - 1
        · have c2 : i ≤ m ∧ m ≤ j := by omega
          rw [if_pos c1, if_pos c2, swapAt_getElem? hr1]
          have e1 : i + 1 + (j - 1) - m ≠ j := by omega
          have e2 : i + 1 + (j - 1) - m ≠ i := by omega
          have e3 : i + 1 + (j - 1) - m = i + j - m := by omega
          rw [if_neg e1, if_neg e2, e3]
        · rw [if_neg c1, swapAt_getElem? hr1]
          by_cases c3 : m = j
          · rw [if_pos c3, if_pos (by omega)]
            congr 1
            omega
          · rw [if_neg c3]
            by_cases c4 : m = i
            · rw [if_pos c4, if_pos (by omega)]
              congr 1
              omega
            · rw [if_neg c4, if_neg (by omega)]
      · intro m
        rw [hd2 m]
        by_cases c1 : i + 1 ≤ m ∧ m ≤ j - 1
        · have c2 : i ≤ m ∧ m ≤ j := by omega
          rw [if_pos c1, if_pos c2, swapAt_getElem? hd1]
          have e1 : i + 1 + (j - 1) - m ≠ j := by omega
          have e2 : i + 1 + (j - 1) - m ≠ i := by omega
          have e3 : i + 1 + (j - 1) - m = i + j - m := by omega
          rw [if_neg e1, if_neg e2, e3]
        · rw [if_neg c1, swapAt_getElem? hd1]
          by_cases c3 : m = j
          · rw [if_pos c3, if_pos (by omega)]
            congr 1
            omega
          · rw [if_neg c3]
            by_cases c4 : m = i
            · rw [if_pos c4, if_pos (by omega)]
              congr 1
              omega
            · rw [if_neg c4, if_neg (by omega)]
    · refine ⟨results, distances, by simp only [hij, if_false], ?_, ?_⟩ <;>
      · intro m
        split_ifs with h
        · have : i + j - m = m := by omega
          rw [this]
        · rfl

theorem reverseLoop_eq_reverse (results : List α) (distances : List ℚ)
    (hlen : results.length = distances.length) :
    reverseLoop results.length 0 (results.length - 1) results distances =
      some (results.reverse, distances.reverse) := by
  obtain ⟨r1, d1, h, hr, hd⟩ := reverseLoop_spec results.length 0 (results.length - 1)
    results distances (fun _ => by omega) (fun _ => by omega) (by omega)
  rw [h]
  have e1 : r1 = results.reverse := by
    apply List.ext_getElem?
    intro m
    rw [hr m]
    by_cases c : m < results.length
    · rw [List.getElem?_reverse c, if_pos (by omega)]
      congr 1
      omega
    · have hnone : results.reverse[m]? = none := List.getElem?_eq_none (by simp; omega)
      rw [hnone]
      split_ifs
      · exact List.getElem?_eq_none (by omega)
      · exact List.getElem?_eq_none (by omega)
  have e2 : d1 = distances.reverse := by
    apply List.ext_getElem?
    intro m
    rw [hd m]
    by_cases c : m < distances.length
    · rw [List.getElem?_reverse c, if_pos (by omega)]
      congr 1
      omega
    · have hnone : distances.reverse[m]? = none := List.getElem?_eq_none (by simp; omega)
      rw [hnone]
      split_ifs
      · exact List.getElem?_eq_none (by omega)
      · exact List.getElem?_eq_none (by omega)
  rw [e1, e2]

end drainLemmas

section searchLemmas
variable {α : Type}

theorem keyAt_zero_of_top {h : priorityQueue α} {m : heapItem α} (hm : h[0]? = some m) :
    keyAt h 0 = m.Dist := by
  simp [keyAt, hm]

theorem HeapOK.le_tau {Distance : α → α → ℚ} {target : α} {k : ℤ} {tau : ℚ}
    {h : priorityQueue α} (ok : HeapOK Distance target k tau h) :
    ∀ e ∈ h, e.Dist ≤ tau := by
  intro e he
  rw [ok.tau_eq]
  unfold tauOf
  split_ifs with hk
  · obtain ⟨c, hc, rfl⟩ := List.getElem_of_mem he
    have := ok.heap.root_max c hc
    rwa [keyAt_of_lt h c hc] at this
  · exact le_of_lt (ok.lt e he)

theorem HeapOK.tau_le_max {Distance : α → α → ℚ} {target : α} {k : ℤ} {tau : ℚ}
    {h : priorityQueue α} (ok : HeapOK Distance target k tau h) (hk : 1 ≤ k) :
    tau ≤ maxFloat64 := by
  rw [ok.tau_eq]
  unfold tauOf
  split_ifs with hlen
  · have hpos : 0 < h.length := by omega
    rw [keyAt_of_lt h 0 hpos]
    exact le_of_lt (ok.lt _ (List.getElem_mem _))
  · exact le_refl _

theorem HeapOK.init (Distance : α → α → ℚ) (target : α) (k : ℤ) (hk : 1 ≤ k) :
    HeapOK Distance target k maxFloat64 ([] : priorityQueue α) where
  heap := IsHeap.nil
  len := by simp; omega
  tau_eq := by
    unfold tauOf
    rw [if_neg]
    simp; omega
  dist := by simp
  lt := by simp

theorem visit_spec (Distance : α → α → ℚ) (target : α) (k : ℤ) (G : ℚ → α → Prop)
    (hG : Discard Distance target G) (hk : 1 ≤ k) (item : α) (tau : ℚ) (h : priorityQueue α)
    (ok : HeapOK Distance target k tau h) :
    SearchPost Distance target k G (visit item (Distance item target) tau k h) [item] tau h := by
  unfold visit SearchPost Reach
  by_cases hlt : Distance item target < tau
  · simp only [hlt, if_true, priorityQueue.Len]
    by_cases hfull : (h.length : ℤ) = k
    · -- the queue is full: evict the largest entry, then insert
      have hne : h ≠ [] := by
        intro e
        rw [e] at hfull
        simp at hfull
        omega
      obtain ⟨m, hp, hpop, h0, hperm, hheap, hmax⟩ := heapPop_spec h ok.heap hne
      obtain ⟨h2, hpush, hperm2, hheap2⟩ := heapPush_spec hp (entry Distance target item) hheap
      have hpush1 : heapPush hp { Item := item, Dist := Distance item target } = some h2 := hpush
      have htau : tau = m.Dist := by
        rw [ok.tau_eq, tauOf, if_pos hfull, keyAt_zero_of_top h0]
      have hlen2 : (h2.length : ℤ) = k := by
        have e1 := hperm.length_eq
        have e2 := hperm2.length_eq
        simp only [List.length_cons] at e1 e2
        omega
      have hpos2 : 0 < h2.length := by omega
      have hmem2 : ∀ e ∈ h2, e = entry Distance target item ∨ e ∈ hp := by
        intro e he
        simpa using hperm2.subset he
      have hsub : ∀ e ∈ hp, e ∈ h := fun e he => hperm.symm.subset (List.mem_cons_of_mem _ he)
      have hle2 : ∀ e ∈ h2, e.Dist ≤ tau := by
        intro e he
        rcases hmem2 e he with rfl | he
        · exact le_of_lt hlt
        · rw [htau]; exact hmax e he
      have hmlt : m.Dist < maxFloat64 := ok.lt m (hperm.symm.subset (List.mem_cons_self _ _))
      refine ⟨h2[0].Dist, h2, ?_, [m], ⟨hheap2, le_of_eq hlen2, ?_, ?_, ?_⟩, ?_, ?_, ?_, ?_⟩
      · simp only [hfull, if_true, hpop, Option.map_some', hpush1, priorityQueue.Top, hlen2,
          List.getElem?_eq_getElem hpos2]
      · rw [tauOf, if_pos hlen2, keyAt_of_lt h2 0 hpos2]
      · intro e he
        rcases hmem2 e he with rfl | he
        · rfl
        · exact ok.dist e (hsub e he)
      · intro e he
        exact lt_of_le_of_lt (hle2 e he) (htau ▸ hmlt)
      · exact hle2 _ (List.getElem_mem _)
      · have e1 : (h2 ++ [m]).Perm (entry Distance target item :: m :: hp) :=
          (List.perm_append_comm.trans (hperm2.cons m)).trans (List.Perm.swap _ _ _)
        have e2 : (h ++ [entry Distance target item]).Perm
            (entry Distance target item :: m :: hp) :=
          List.perm_append_comm.trans (hperm.cons _)
        simpa using e1.trans e2.symm
      · intro e he
        have : e = m := by simpa using he
        subst this
        apply hG.le
        rw [← ok.dist e (hperm.symm.subset (List.mem_cons_self _ _)), ← htau]
        exact hle2 _ (List.getElem_mem _)
      · exact fun _ => hlen2
    · -- the queue is not full: insert
      obtain ⟨h2, hpush, hperm2, hheap2⟩ := heapPush_spec h (entry Distance target item) ok.heap
      have hpush1 : heapPush h { Item := item, Dist := Distance item target } = some h2 := hpush
      have hlen2 : h2.length = h.length + 1 := by simpa using hperm2.length_eq
      have hlenk : (h.length : ℤ) ≤ k := ok.len
      have hpos2 : 0 < h2.length := by omega
      have htau : tau = maxFloat64 := by rw [ok.tau_eq, tauOf, if_neg hfull]
      have hmem2 : ∀ e ∈ h2, e = entry Distance target item ∨ e ∈ h := by
        intro e he
        simpa using hperm2.subset he
      have hlt2 : ∀ e ∈ h2, e.Dist < maxFloat64 := by
        intro e he
        rcases hmem2 e he with rfl | he
        · exact htau ▸ hlt
        · exact ok.lt e he
      have hdist2 : ∀ e ∈ h2, e.Dist = Distance e.Item target := by
        intro e he
        rcases hmem2 e he with rfl | he
        · rfl
        · exact ok.dist e he
      have hperm3 : (h2 ++ []).Perm (h ++ List.map (entry Distance target) [item]) := by
        have e1 : ([entry Distance target item] ++ h).Perm (h ++ [entry Distance target item]) :=
          List.perm_append_comm
        simpa using hperm2.trans e1
      simp only [hfull, if_false, hpush1]
      by_cases hfull2 : (h2.length : ℤ) = k
      · refine ⟨h2[0].Dist, h2, ?_, [], ⟨hheap2, le_of_eq hfull2, ?_, hdist2, hlt2⟩, ?_, hperm3,
          ?_, ?_⟩
        · simp only [hfull2, if_true, priorityQueue.Top, List.getElem?_eq_getElem hpos2]
        · rw [tauOf, if_pos hfull2, keyAt_of_lt h2 0 hpos2]
        · rw [htau]
          exact le_of_lt (hlt2 _ (List.getElem_mem _))
        · simp
        · exact fun _ => hfull2
      · refine ⟨tau, h2, ?_, [], ⟨hheap2, by omega, ?_, hdist2, hlt2⟩, le_refl _, hperm3, ?_, ?_⟩
        · simp only [hfull2, if_false]
        · rw [tauOf, if_neg hfull2, htau]
        · simp
        · exact fun e => e.elim
  · simp only [hlt, if_false]
    refine ⟨tau, h, rfl, [entry Distance target item], ok, le_refl _, ?_, ?_, fun e => e⟩
    · simp
    · intro e he
      have : e = entry Distance target item := by simpa using he
      subst this
      exact hG.le _ _ (not_lt.mp hlt)

theorem Reach.refl {Distance : α → α → ℚ} {target : α} {k : ℤ} {G : ℚ → α → Prop}
    {tau : ℚ} {h : priorityQueue α} (ok : HeapOK Distance target k tau h) :
    Reach Distance target k G [] tau h tau h :=
  ⟨[], ok, le_refl _, by simp, by simp, fun e => e⟩

theorem Reach.skip {Distance : α → α → ℚ} {target : α} {k : ℤ} {G : ℚ → α → Prop}
    {tau : ℚ} {h : priorityQueue α} (ok : HeapOK Distance target k tau h) (items : List α)
    (hs : ∀ x ∈ items, G tau x) :
    Reach Distance target k G items tau h tau h := by
  refine ⟨items.map (entry Distance target), ok, le_refl _, List.Perm.refl _, ?_, fun e => e⟩
  intro e he
  obtain ⟨x, hx, rfl⟩ := List.mem_map.mp he
  exact hs x hx

theorem Reach.trans {Distance : α → α → ℚ} {target : α} {k : ℤ} {G : ℚ → α → Prop}
    (hG : Discard Distance target G) {items1 items2 : List α}
    {tau tau1 tau2 : ℚ} {h h1 h2 : priorityQueue α}
    (r1 : Reach Distance target k G items1 tau h tau1 h1)
    (r2 : Reach Distance target k G items2 tau1 h1 tau2 h2) :
    Reach Distance target k G (items1 ++ items2) tau h tau2 h2 := by
  obtain ⟨d1, _, hle1, hp1, hg1, hf1⟩ := r1
  obtain ⟨d2, ok2, hle2, hp2, hg2, hf2⟩ := r2
  refine ⟨d2 ++ d1, ok2, le_trans hle2 hle1, ?_, ?_, fun e => hf2 (hf1 e)⟩
  · have e1 : (h2 ++ (d2 ++ d1)).Perm
        ((h1 ++ items2.map (entry Distance target)) ++ d1) := by
      rw [← List.append_assoc]
      exact hp2.append_right d1
    have e2 : ((h1 ++ items2.map (entry Distance target)) ++ d1).Perm
        ((h1 ++ d1) ++ items2.map (entry Distance target)) := by
      rw [List.append_assoc, List.append_assoc]
      exact List.Perm.append_left h1 List.perm_append_comm
    have e3 : ((h1 ++ d1) ++ items2.map (entry Distance target)).Perm
        ((h ++ items1.map (entry Distance target)) ++ items2.map (entry Distance target)) :=
      hp1.append_right _
    simpa using (e1.trans e2).trans e3
  · intro e he
    rcases List.mem_append.mp he with he | he
    · exact hg2 e he
    · exact hG.mono _ _ _ hle2 (hg1 e he)

theorem Reach.perm {Distance : α → α → ℚ} {target : α} {k : ℤ} {G : ℚ → α → Prop}
    {items1 items2 : List α} {tau tau1 : ℚ} {h h1 : priorityQueue α}
    (r1 : Reach Distance target k G items1 tau h tau1 h1) (hp : items1.Perm items2) :
    Reach Distance target k G items2 tau h tau1 h1 := by
  obtain ⟨d1, ok1, hle1, hp1, hg1, hf1⟩ := r1
  exact ⟨d1, ok1, hle1, hp1.trans (List.Perm.append_left h (hp.map _)), hg1, hf1⟩

theorem node.isNil_iff (n : node α) : n.isNil = true ↔ n = node.nil := by
  cases n <;> simp [node.isNil]

/-- The conditional descent `if c { vp.search(n, ...) }` of `search`. -/
theorem descend_spec {Distance : α → α → ℚ} {target : α} {k : ℤ} {G : ℚ → α → Prop}
    (n : node α) (c : Prop) [Decidable c]
    (ih : ∀ tau h, HeapOK Distance target k tau h →
      SearchPost Distance target k G (search Distance n tau target k h) n.items tau h)
    (tau : ℚ) (h : priorityQueue α) (ok : HeapOK Distance target k tau h)
    (hskip : ¬ c → ∀ x ∈ n.items, G tau x) :
    SearchPost Distance target k G
      (if c then search Distance n tau target k h else some (tau, h)) n.items tau h := by
  by_cases hc : c
  · simpa only [hc, if_true] using ih tau h ok
  · simp only [hc, if_false]
    exact ⟨tau, h, rfl, Reach.skip ok _ (hskip hc)⟩

theorem search_spec (Distance : α → α → ℚ) (target : α) (k : ℤ) (G : ℚ → α → Prop)
    (hG : Discard Distance target G) (hk : 1 ≤ k) (n : node α)
    (hp : PruneOK Distance target G n) :
    ∀ tau h, HeapOK Distance target k tau h →
      SearchPost Distance target k G (search Distance n tau target k h) n.items tau h := by
  induction n with
  | nil =>
    intro tau h ok
    exact ⟨tau, h, rfl, Reach.refl ok⟩
  | mk item threshold left right ihl ihr =>
    intro tau h ok
    obtain ⟨hloc, hpl, hpr⟩ := hp
    have ihl1 := ihl hpl
    have ihr1 := ihr hpr
    obtain ⟨tau1, h1, hv, r1⟩ := visit_spec Distance target k G hG hk item tau h ok
    have ok1 : HeapOK Distance target k tau1 h1 := r1.choose_spec.1
    simp only [search, hv]
    by_cases hleaf : (left.isNil && right.isNil) = true
    · simp only [hleaf, if_true]
      have e1 : left = node.nil := (node.isNil_iff left).mp (by simp at hleaf; exact hleaf.1)
      have e2 : right = node.nil := (node.isNil_iff right).mp (by simp at hleaf; exact hleaf.2)
      refine ⟨tau1, h1, rfl, ?_⟩
      simpa [node.items, e1, e2] using r1
    · simp only [hleaf]
      by_cases hside : Distance item target < threshold
      · simp only [hside, if_true]
        obtain ⟨tau2, h2, e2, r2⟩ := descend_spec left (Distance item target - tau1 ≤ threshold)
          ihl1 tau1 h1 ok1 (fun hc => hloc.1 tau1 hc)
        have ok2 : HeapOK Distance target k tau2 h2 := r2.choose_spec.1
        obtain ⟨tau3, h3, e3, r3⟩ := descend_spec right (Distance item target + tau2 ≥ threshold)
          ihr1 tau2 h2 ok2 (fun hc => hloc.2 tau2 hc)
        simp only [e2, e3]
        exact ⟨tau3, h3, by simp, by
          simpa [node.items] using (r1.trans hG (r2.trans hG r3))⟩
      · simp only [hside, if_false]
        obtain ⟨tau2, h2, e2, r2⟩ := descend_spec right (Distance item target + tau1 ≥ threshold)
          ihr1 tau1 h1 ok1 (fun hc => hloc.2 tau1 hc)
        have ok2 : HeapOK Distance target k tau2 h2 := r2.choose_spec.1
        obtain ⟨tau3, h3, e3, r3⟩ := descend_spec left (Distance item target - tau2 ≤ threshold)
          ihl1 tau2 h2 ok2 (fun hc => hloc.1 tau2 hc)
        simp only [e2, e3]
        refine ⟨tau3, h3, by simp, ?_⟩
        have := r1.trans hG (r2.trans hG r3)
        refine this.perm ?_
        simpa [node.items] using (List.perm_append_comm : (right.items ++ left.items).Perm _)

/-- The pairs returned by `Search` with `k ≥ 1`, on any tree whose skipped subtrees may be left
out: they are sorted by distance, and together with the entries left out they are the entries
of the items of the tree. -/
theorem Search_spec (Distance : α → α → ℚ) (target : α) (k : ℤ) (G : ℚ → α → Prop)
    (hG : Discard Distance target G) (hk : 1 ≤ k) (vp : VPTree α)
    (hp : PruneOK Distance target G vp.Root) :
    ∃ (tau : ℚ) (out disc : List (heapItem α)),
      Search Distance vp target k = some (out.map heapItem.Item, out.map heapItem.Dist) ∧
      out.Pairwise (fun a b => a.Dist ≤ b.Dist) ∧
      (out ++ disc).Perm (vp.Root.items.map (entry Distance target)) ∧
      (out.length : ℤ) ≤ k ∧
      (∀ e ∈ out, e.Dist ≤ tau) ∧ (∀ e ∈ out, e.Dist < maxFloat64) ∧
      ((out.length : ℤ) ≠ k → tau = maxFloat64) ∧
      (∀ e ∈ disc, G tau e.Item) := by
  obtain ⟨tau1, h1, hs, disc, ok1, _, hperm, hg, _⟩ :=
    search_spec Distance target k G hG hk vp.Root hp maxFloat64 [] (HeapOK.init Distance target k hk)
  obtain ⟨outd, hd, hpd, hsd⟩ := drain_spec h1.length h1 ok1.heap (le_refl _) [] []
  have hlen : outd.length = h1.length := hpd.length_eq
  refine ⟨tau1, outd.reverse, disc, ?_, ?_, ?_, ?_, ?_, ?_, ?_, hg⟩
  · unfold Search
    rw [if_neg (by omega), hs]
    simp only [priorityQueue.Len, hd, List.nil_append]
    rw [reverseLoop_eq_reverse _ _ (by simp)]
    simp [List.map_reverse]
  · exact List.pairwise_reverse.mpr hsd
  · have : (outd.reverse ++ disc).Perm (h1 ++ disc) :=
      ((List.reverse_perm outd).trans hpd).append_right disc
    simpa using this.trans hperm
  · simpa [hlen] using ok1.len
  · intro e he
    exact ok1.le_tau e (hpd.subset (List.mem_reverse.mp he))
  · intro e he
    exact ok1.lt e (hpd.subset (List.mem_reverse.mp he))
  · intro hne
    rw [ok1.tau_eq, tauOf, if_neg]
    simpa [hlen] using hne

end searchLemmas

section buildLemmas
variable {α : Type}

theorem partitionLoop_prefix (Distance : α → α → ℚ) (pivot : α) (pivotDist : ℚ)
    (items : List α) (Length : ℕ) (i : ℕ) (hi : i ≤ items.length - 1) :
    ∃ s si, (List.range i).foldlM (partitionStep Distance pivot pivotDist) (items, 0, Length) =
        some (s, si, Length + si) ∧
      s.Perm items ∧ s.length = items.length ∧ si ≤ i ∧
      (∀ m x, m < si → s[m]? = some x → Distance x pivot ≤ pivotDist) ∧
      (∀ m x, si ≤ m → m < i → s[m]? = some x → ¬ Distance x pivot ≤ pivotDist) ∧
      (∀ m, i ≤ m → s[m]? = items[m]?) := by
  induction i with
  | zero =>
    refine ⟨items, 0, by simp, List.Perm.refl _, rfl, le_refl _, ?_, ?_, fun _ _ => rfl⟩
    · intro m x hm
      omega
    · intro m x _ hm
      omega
  | succ i ih =>
    obtain ⟨s, si, hfold, hperm, hlen, hsi, hnear, hfar, hrest⟩ := ih (by omega)
    have hil : i < s.length := by omega
    rw [List.range_succ, List.foldlM_append, hfold]
    simp only [Option.bind_eq_bind, Option.some_bind, List.foldlM_cons, List.foldlM_nil,
      partitionStep, List.getElem?_eq_getElem hil]
    by_cases hle : Distance s[i] pivot ≤ pivotDist
    · obtain ⟨s1, hs1⟩ : ∃ s1, swapAt s si i = some s1 :=
        ⟨_, swapAt_eq_some s si i (by omega) hil⟩
      have hget := swapAt_getElem? hs1
      refine ⟨s1, si + 1, ?_, (swapAt_perm hs1).trans hperm, by rw [swapAt_length hs1, hlen],
        by omega, ?_, ?_, ?_⟩
      · simp [hle, hs1, Nat.add_assoc]
      · intro m x hm hx
        rw [hget m] at hx
        by_cases e1 : m = i
        · have e2 : si = i := by omega
          rw [if_pos e1, e2, List.getElem?_eq_getElem hil] at hx
          cases hx
          exact hle
        · rw [if_neg e1] at hx
          by_cases e2 : m = si
          · rw [if_pos e2, List.getElem?_eq_getElem hil] at hx
            cases hx
            exact hle
          · rw [if_neg e2] at hx
            exact hnear m x (by omega) hx
      · intro m x hm1 hm2 hx
        rw [hget m] at hx
        by_cases e1 : m = i
        · rw [if_pos e1] at hx
          exact hfar si x (le_refl _) (by omega) hx
        · rw [if_neg e1, if_neg (by omega)] at hx
          exact hfar m x (by omega) (by omega) hx
      · intro m hm
        rw [hget m, if_neg (by omega), if_neg (by omega)]
        exact hrest m (by omega)
    · refine ⟨s, si, ?_, hperm, hlen, by omega, hnear, ?_, ?_⟩
      · simp [hle]
      · intro m x hm1 hm2 hx
        by_cases e1 : m = i
        · rw [e1, List.getElem?_eq_getElem hil] at hx
          cases hx
          exact hle
        · exact hfar m x hm1 (by omega) hx
      · intro m hm
        exact hrest m (by omega)

theorem partitionLoop_spec (Distance : α → α → ℚ) (pivot : α) (pivotDist : ℚ)
    (items : List α) (Length : ℕ) :
    ∃ s si, partitionLoop Distance pivot pivotDist items Length = some (s, si, Length + si) ∧
      s.Perm items ∧ s.length = items.length ∧ si ≤ items.length - 1 ∧
      (∀ m x, m < si → s[m]? = some x → Distance x pivot ≤ pivotDist) ∧
      (∀ m x, si ≤ m → m < items.length - 1 → s[m]? = some x →
        ¬ Distance x pivot ≤ pivotDist) ∧
      s[items.length - 1]? = items[items.length - 1]? := by
  obtain ⟨s, si, h1, h2, h3, h4, h5, h6, h7⟩ :=
    partitionLoop_prefix Distance pivot pivotDist items Length (items.length - 1) (le_refl _)
  exact ⟨s, si, h1, h2, h3, h4, h5, h6, h7 _ (le_refl _)⟩

theorem mem_take_getElem? {l : List α} {n : ℕ} {x : α} (h : x ∈ l.take n) :
    ∃ m, m < n ∧ l[m]? = some x := by
  obtain ⟨m, hm⟩ := List.mem_iff_getElem?.mp h
  rw [List.getElem?_take] at hm
  by_cases c : m < n
  · rw [if_pos c] at hm
    exact ⟨m, c, hm⟩
  · rw [if_neg c] at hm
    cases hm

theorem mem_drop_getElem? {l : List α} {n : ℕ} {x : α} (h : x ∈ l.drop n) :
    ∃ m, n ≤ m ∧ l[m]? = some x := by
  obtain ⟨m, hm⟩ := List.mem_iff_getElem?.mp h
  rw [List.getElem?_drop] at hm
  exact ⟨n + m, by omega, hm⟩

/-- The partition phase of `buildFromPoints` on the remaining range `items1` (non-empty) with
pivot `item`: it does not panic, and it splits a reordering of `items1` at `storeIndex` into the
items at distance at most `pivotDist` and the median candidate followed by the items farther
away. -/
theorem split_spec (Distance : α → α → ℚ) (item : α) (Length : ℕ) (items1 : List α)
    (hpos : 0 < items1.length) :
    ∃ m items2 items3 si items4,
      items1[items1.length / 2]? = some m ∧
      swapAt items1 (items1.length / 2) (items1.length - 1) = some items2 ∧
      partitionLoop Distance item (Distance m item) items2 Length =
        some (items3, si, Length + si) ∧
      swapAt items3 (items3.length - 1) si = some items4 ∧
      subslice items4 0 si = some (items4.take si) ∧
      subslice items4 si items4.length = some (items4.drop si) ∧
      items4.Perm items1 ∧ si < items1.length ∧
      (∀ x ∈ items4.take si, Distance x item ≤ Distance m item) ∧
      (∀ x ∈ items4.drop (si + 1), Distance m item < Distance x item) ∧
      items4.drop si = m :: items4.drop (si + 1) := by
  have hmed : items1.length / 2 < items1.length := by omega
  obtain ⟨items2, hs2⟩ : ∃ items2, swapAt items1 (items1.length / 2) (items1.length - 1) =
      some items2 := ⟨_, swapAt_eq_some _ _ _ hmed (by omega)⟩
  have hlen2 := swapAt_length hs2
  obtain ⟨items3, si, hloop, hperm3, hlen3, hsi, hnear, hfar, hlast⟩ :=
    partitionLoop_spec Distance item (Distance items1[items1.length / 2] item) items2 Length
  rw [hlen2] at hlen3 hsi hfar hlast
  have hlast3 : items3[items1.length - 1]? = some items1[items1.length / 2] := by
    rw [hlast, swapAt_getElem? hs2, if_pos rfl, List.getElem?_eq_getElem hmed]
  obtain ⟨items4, hs4⟩ : ∃ items4, swapAt items3 (items3.length - 1) si = some items4 :=
    ⟨_, swapAt_eq_some _ _ _ (by omega) (by omega)⟩
  have hlen4 : items4.length = items1.length := by rw [swapAt_length hs4, hlen3]
  have hget4 := swapAt_getElem? hs4
  rw [hlen3] at hget4
  have h4si : items4[si]? = some items1[items1.length / 2] := by
    rw [hget4, if_pos rfl, hlast3]
  refine ⟨items1[items1.length / 2], items2, items3, si, items4,
    List.getElem?_eq_getElem hmed, hs2, hloop, hs4, ?_, ?_, ?_, by omega, ?_, ?_, ?_⟩
  · rw [subslice_eq_some _ _ _ (Nat.zero_le _) (by omega)]
    simp
  · rw [subslice_eq_some _ _ _ (by omega) (le_refl _)]
    simp
  · exact (swapAt_perm hs4).trans (hperm3.trans (swapAt_perm hs2))
  · intro x hx
    obtain ⟨m, hm, hxm⟩ := mem_take_getElem? hx
    rw [hget4, if_neg (by omega)] at hxm
    by_cases e1 : m = items1.length - 1
    · omega
    · rw [if_neg e1] at hxm
      exact hnear m x hm hxm
  · intro x hx
    obtain ⟨m, hm, hxm⟩ := mem_drop_getElem? hx
    rw [hget4, if_neg (by omega)] at hxm
    by_cases e1 : m = items1.length - 1
    · rw [if_pos e1] at hxm
      exact not_le.mp (hfar si x (le_refl _) (by omega) hxm)
    · rw [if_neg e1] at hxm
      have hml : m < items3.length := by
        by_contra hc
        rw [List.getElem?_eq_none (not_lt.mp hc)] at hxm
        cases hxm
      exact not_le.mp (hfar m x (by omega) (by omega) hxm)
  · have hsi4 : si < items4.length := by omega
    rw [List.getElem?_eq_getElem hsi4] at h4si
    rw [List.drop_eq_getElem_cons hsi4, Option.some.inj h4si]

/-- Taking the pivot out: `n.Item = items[idx]; items[idx], items = items[len(items)-1],
items[:len(items)-1]` leaves a range that, with the pivot, is a reordering of `items`. -/
theorem takeout_perm (items : List α) (idx : ℕ) (hidx : idx < items.length)
    (hl : items.length - 1 < items.length) :
    (items[idx] :: ((items.set idx items[items.length - 1]).take
      (items.length - 1))).Perm items := by
  have hwl : (items.set idx items[items.length - 1]).length = items.length := by simp
  have hsplit : items.set idx items[items.length - 1] =
      (items.set idx items[items.length - 1]).take (items.length - 1) ++
        [items[items.length - 1]] := by
    have h3 : (items.set idx items[items.length - 1]).drop (items.length - 1) =
        [items[items.length - 1]] := by
      apply List.ext_getElem?
      intro n
      rw [List.getElem?_drop]
      cases n with
      | zero =>
        by_cases h1 : idx = items.length - 1
        · simp [List.getElem?_set, h1, hl]
        · simp [List.getElem?_set, h1, List.getElem?_eq_getElem hl]
      | succ n =>
        simp only [List.getElem?_cons_succ]
        rw [List.getElem?_eq_none (by rw [hwl]; omega)]
        simp
    conv_lhs => rw [← List.take_append_drop (items.length - 1) (items.set idx _), h3]
  have h1 := cons_set_perm items idx items[items.length - 1] hidx
  rw [hsplit] at h1
  have h2 : (items[idx] :: ((items.set idx items[items.length - 1]).take (items.length - 1) ++
      [items[items.length - 1]])).Perm
      (items[items.length - 1] :: items[idx] ::
        (items.set idx items[items.length - 1]).take (items.length - 1)) := by
    refine List.Perm.trans ?_ (List.Perm.swap _ _ _)
    exact List.Perm.cons _ List.perm_append_comm
  exact (List.Perm.cons_inv (h2.symm.trans h1))

theorem buildFromPoints_spec (Distance : α → α → ℚ) (rnd : ℕ → ℕ) :
    ∀ (fuel : ℕ) (items : List α) (Length pos : ℕ), items.length < fuel →
      ∃ n items1 Length1 pos1,
        buildFromPoints Distance rnd fuel items Length pos = some (n, items1, Length1, pos1) ∧
        n.items.Perm items ∧ n.All (BuiltNode Distance) := by
  intro fuel
  induction fuel with
  | zero =>
    intro items Length pos h
    omega
  | succ fuel ih =>
    intro items Length pos hfuel
    unfold buildFromPoints
    by_cases h0 : items.length = 0
    · have : items = [] := List.length_eq_zero.mp h0
      subst this
      exact ⟨node.nil, [], Length, pos, by simp, by simp [node.items], trivial⟩
    · have hidx : rnd pos % items.length < items.length := Nat.mod_lt _ (by omega)
      have hl : items.length - 1 < items.length := by omega
      have hperm := takeout_perm items (rnd pos % items.length) hidx hl
      have hsub : subslice (items.set (rnd pos % items.length) items[items.length - 1]) 0
          (items.length - 1) =
          some ((items.set (rnd pos % items.length) items[items.length - 1]).take
            (items.length - 1)) := by
        rw [subslice_eq_some _ _ _ (Nat.zero_le _) (by simp)]
        simp
      simp only [h0, if_false, List.getElem?_eq_getElem hidx, List.getElem?_eq_getElem hl, hsub]
      generalize hitems1 : (items.set (rnd pos % items.length) items[items.length - 1]).take
        (items.length - 1) = items1 at hperm
      have hlen1 : items1.length = items.length - 1 := by
        rw [← hitems1]
        simp
      by_cases hpos : items1.length > 0
      · obtain ⟨m, items2, items3, si, items4, e1, e2, e3, e4, e5, e6, hperm4, hsi, hnear, hfar,
          hdrop⟩ := split_spec Distance items[rnd pos % items.length] Length items1 hpos
        have hlen4 : items4.length = items1.length := hperm4.length_eq
        obtain ⟨left, near1, Length2, pos2, hbl, hpl, hal⟩ :=
          ih (items4.take si) (Length + si) (pos + 1) (by simp; omega)
        obtain ⟨right, far1, Length3, pos3, hbr, hpr, har⟩ :=
          ih (items4.drop si) Length2 pos2 (by simp; omega)
        refine ⟨node.mk items[rnd pos % items.length] (Distance m items[rnd pos % items.length])
          left right, near1 ++ far1 ++ List.drop (items.length - 1)
            (items.set (rnd pos % items.length) items[items.length - 1]),
          Length3, pos3, ?_, ?_, ⟨?_, ?_, ?_⟩, hal, har⟩
        · simp only [hpos, if_true, e1, e2, e3, e4, e5, e6, hbl, hbr]
        · simp only [node.items]
          refine List.Perm.trans (List.Perm.cons _ ?_) hperm
          exact (hpl.append hpr).trans (by rw [List.take_append_drop]; exact hperm4)
        · intro x hx
          exact hnear x (hpl.subset hx)
        · intro x hx
          have hx1 := hpr.subset hx
          rw [hdrop] at hx1
          rcases List.mem_cons.mp hx1 with rfl | hx2
          · exact le_refl _
          · exact le_of_lt (hfar x hx2)
        · right
          exact ⟨m, items4.drop (si + 1), hdrop ▸ hpr, rfl, hfar⟩
      · have hnil : items1 = [] := List.length_eq_zero.mp (by omega)
        refine ⟨node.mk items[rnd pos % items.length] 0 node.nil node.nil,
          items.set (rnd pos % items.length) items[items.length - 1], Length, pos + 1,
          ?_, ?_, ⟨?_, ?_, ?_⟩, trivial, trivial⟩
        · simp only [hpos, if_false]
        · rw [hnil] at hperm
          simpa [node.items] using hperm
        · simp [node.items]
        · simp [node.items]
        · left
          exact ⟨rfl, rfl, rfl⟩

theorem New_spec (Distance : α → α → ℚ) (rnd : ℕ → ℕ) (items : List α) :
    ∃ vp items1, New Distance rnd items = some (vp, items1) ∧
      vp.Root.items.Perm items ∧ vp.Root.All (BuiltNode Distance) := by
  obtain ⟨n, items1, Length1, pos1, h1, h2, h3⟩ :=
    buildFromPoints_spec Distance rnd (items.length + 1) items 0 0 (by omega)
  exact ⟨{ Root := n, Length := Length1 }, items1, by simp [New, h1], h2, h3⟩

end buildLemmas

section buildLemmas5
variable {α : Type}

/-- One call of `buildFromPoints` on a range of two or more items: the pivot `item` is taken
out at the drawn index, the median candidate `m` is the item in the middle of the remaining
range, the remaining range is split into `near` and `far`, with `m` the first item of `far`,
and the children of the node are built by the recursive calls on `near` and on `far`. -/
theorem buildFromPoints_step (Distance : α → α → ℚ) (rnd : ℕ → ℕ) (fuel : ℕ)
    (items : List α) (Length pos : ℕ) (hfuel : items.length < fuel + 1)
    (h2 : 2 ≤ items.length) :
    ∃ (item last m : α) (near tail : List α) (left right : node α) (near1 far1 : List α)
      (Length2 Length3 pos2 pos3 : ℕ),
      items[rnd pos % items.length]? = some item ∧
      items[items.length - 1]? = some last ∧
      ((items.set (rnd pos % items.length) last).take (items.length - 1))[
        (items.length - 1) / 2]? = some m ∧
      (near ++ m :: tail).Perm
        ((items.set (rnd pos % items.length) last).take (items.length - 1)) ∧
      (∀ x ∈ near, Distance x item ≤ Distance m item) ∧
      (∀ x ∈ tail, Distance m item < Distance x item) ∧
      buildFromPoints Distance rnd fuel near (Length + near.length) (pos + 1) =
        some (left, near1, Length2, pos2) ∧
      buildFromPoints Distance rnd fuel (m :: tail) Length2 pos2 =
        some (right, far1, Length3, pos3) ∧
      buildFromPoints Distance rnd (fuel + 1) items Length pos =
        some (node.mk item (Distance m item) left right, near1 ++ far1 ++ [last], Length3,
          pos3) ∧
      left.items.Perm near ∧ right.items.Perm (m :: tail) := by
  have h0 : ¬ items.length = 0 := by omega
  have hidx : rnd pos % items.length < items.length := Nat.mod_lt _ (by omega)
  have hl : items.length - 1 < items.length := by omega
  have hsub : subslice (items.set (rnd pos % items.length) items[items.length - 1]) 0
      (items.length - 1) =
      some ((items.set (rnd pos % items.length) items[items.length - 1]).take
        (items.length - 1)) := by
    rw [subslice_eq_some _ _ _ (Nat.zero_le _) (by simp)]
    simp
  have hdropl : List.drop (items.length - 1)
      (items.set (rnd pos % items.length) items[items.length - 1]) = [items[items.length - 1]] := by
    apply List.ext_getElem?
    intro n
    rw [List.getElem?_drop]
    cases n with
    | zero =>
      by_cases h1 : rnd pos % items.length = items.length - 1
      · simp [List.getElem?_set, h1, hl]
      · simp [List.getElem?_set, h1, List.getElem?_eq_getElem hl]
    | succ n =>
      simp only [List.getElem?_cons_succ]
      rw [List.getElem?_eq_none (by simp; omega)]
      simp
  generalize hitems1 : (items.set (rnd pos % items.length) items[items.length - 1]).take
    (items.length - 1) = items1 at hsub
  have hlen1 : items1.length = items.length - 1 := by
    rw [← hitems1]
    simp
  have hpos : items1.length > 0 := by omega
  obtain ⟨m, items2, items3, si, items4, e1, e2, e3, e4, e5, e6, hperm4, hsi, hnear, hfar,
    hdrop⟩ := split_spec Distance items[rnd pos % items.length] Length items1 hpos
  have hlen4 : items4.length = items1.length := hperm4.length_eq
  have hlnear : (items4.take si).length = si := by
    rw [List.length_take]
    omega
  obtain ⟨left, near1, Length2, pos2, hbl, hpl, _⟩ :=
    buildFromPoints_spec Distance rnd fuel (items4.take si) (Length + si) (pos + 1)
      (by rw [hlnear]; omega)
  obtain ⟨right, far1, Length3, pos3, hbr, hpr, _⟩ :=
    buildFromPoints_spec Distance rnd fuel (items4.drop si) Length2 pos2 (by simp; omega)
  have hmain : buildFromPoints Distance rnd (fuel + 1) items Length pos =
      some (node.mk items[rnd pos % items.length] (Distance m items[rnd pos % items.length])
        left right, near1 ++ far1 ++ [items[items.length - 1]], Length3, pos3) := by
    unfold buildFromPoints
    simp only [h0, if_false, List.getElem?_eq_getElem hidx, List.getElem?_eq_getElem hl, hsub,
      hdropl, hpos, if_true, e1, e2, e3, e4, e5, e6, hbl, hbr]
  refine ⟨items[rnd pos % items.length], items[items.length - 1], m, items4.take si,
    items4.drop (si + 1), left, right, near1, far1, Length2, Length3, pos2, pos3, List.getElem?_eq_getElem hidx, List.getElem?_eq_getElem hl, ?_,
    ?_, hnear, hfar, ?_, ?_, ?_, hpl, hdrop ▸ hpr⟩
  · rw [hitems1, ← hlen1]
    exact e1
  · rw [hitems1, ← hdrop, List.take_append_drop]
    exact hperm4
  · rw [hlnear]
    exact hbl
  · rw [← hdrop]
    exact hbr
  · exact hmain

end buildLemmas5

section metricLemmas
variable {α : Type}

theorem node.All.imp {P Q : α → ℚ → node α → node α → Prop}
    (hPQ : ∀ item threshold left right, P item threshold left right →
      Q item threshold left right) :
    ∀ n : node α, n.All P → n.All Q := by
  intro n
  induction n with
  | nil => exact fun _ => trivial
  | mk item threshold left right ihl ihr =>
    intro h
    exact ⟨hPQ _ _ _ _ h.1, ihl h.2.1, ihr h.2.2⟩

theorem node.count_eq_length_items (n : node α) : n.count = n.items.length := by
  induction n with
  | nil => rfl
  | mk item threshold left right ihl ihr =>
    simp only [node.count, node.items, List.length_cons, List.length_append, ihl, ihr]
    omega

theorem maxFloat64_pos : (0 : ℚ) < maxFloat64 := by
  unfold maxFloat64
  norm_num

/-- With a metric, a subtree that `search` skips at a built node holds only items at distance
at least `tau` from the target. -/
theorem pruneOK_of_metric {Distance : α → α → ℚ} (hm : IsMetric Distance) (target : α)
    (n : node α) (hb : n.All (BuiltNode Distance)) :
    PruneOK Distance target (fun tau x => tau ≤ Distance x target) n := by
  refine node.All.imp ?_ n hb
  intro item threshold left right ⟨hl, hr, _⟩
  constructor
  · intro tau hc x hx
    have h1 := hl x hx
    have h2 := hm.triangle item x target
    have h3 := hm.symm item x
    linarith [not_le.mp hc]
  · intro tau hc x hx
    have h1 := hr x hx
    have h2 := hm.triangle x target item
    have h3 := hm.symm target item
    linarith [not_le.mp hc]

theorem discard_metric (Distance : α → α → ℚ) (target : α) :
    Discard Distance target (fun tau x => tau ≤ Distance x target) where
  mono := fun _ _ _ h1 h2 => le_trans h1 h2
  le := fun _ _ h => h

/-- A sorted list `od` whose entries are at most `tau` and below `M`, next to entries `dd` that
are at least `tau`: when `od` has `k` entries, or `tau` is `M`, `od` is the list of the `k`
smallest entries below `M`. -/
theorem eq_take_sort_filter (od dd L : List ℚ) (k : ℕ) (tau M : ℚ)
    (hs : od.Sorted (· ≤ ·)) (hperm : L.Perm (od ++ dd))
    (h1 : ∀ a ∈ od, a ≤ tau) (h2 : ∀ a ∈ od, a < M) (h3 : ∀ b ∈ dd, tau ≤ b)
    (hlen : od.length ≤ k) (hfull : od.length ≠ k → tau = M) :
    od = ((L.filter (fun d => d < M)).insertionSort (· ≤ ·)).take k := by
  have hfo : od.filter (fun d => decide (d < M)) = od := by
    rw [List.filter_eq_self]
    intro a ha
    simpa using h2 a ha
  have hpf : (L.filter (fun d => decide (d < M))).Perm
      (od ++ dd.filter (fun d => decide (d < M))) := by
    have := hperm.filter (fun d => decide (d < M))
    rwa [List.filter_append, hfo] at this
  have hsorted : (od ++ (dd.filter (fun d => decide (d < M))).insertionSort (· ≤ ·)).Sorted
      (· ≤ ·) := by
    unfold List.Sorted
    rw [List.pairwise_append]
    refine ⟨hs, List.sorted_insertionSort _ _, ?_⟩
    intro a ha b hb
    have hb1 : b ∈ dd.filter (fun d => decide (d < M)) :=
      (List.perm_insertionSort _ _).subset hb
    exact le_trans (h1 a ha) (h3 b (List.mem_of_mem_filter hb1))
  have heq : (L.filter (fun d => decide (d < M))).insertionSort (· ≤ ·) =
      od ++ (dd.filter (fun d => decide (d < M))).insertionSort (· ≤ ·) := by
    apply List.eq_of_perm_of_sorted _ (List.sorted_insertionSort _ _) hsorted
    exact (List.perm_insertionSort _ _).trans
      (hpf.trans (List.Perm.append_left od (List.perm_insertionSort _ _).symm))
  rw [heq]
  by_cases hk : od.length = k
  · rw [← hk, List.take_left]
  · have htau := hfull hk
    have hnil : dd.filter (fun d => decide (d < M)) = [] := by
      rw [List.filter_eq_nil_iff]
      intro b hb
      have := h3 b hb
      rw [htau] at this
      simpa using this
    rw [hnil]
    simp only [List.insertionSort, List.append_nil]
    rw [List.take_of_length_le hlen]

theorem entry_Dist_map (Distance : α → α → ℚ) (target : α) (items : List α) :
    (items.map (entry Distance target)).map heapItem.Dist =
      items.map (fun x => Distance x target) := by
  simp [List.map_map, Function.comp_def, entry]

theorem entry_Item_map (Distance : α → α → ℚ) (target : α) (items : List α) :
    (items.map (entry Distance target)).map heapItem.Item = items := by
  simp [List.map_map, Function.comp_def, entry]

/-- With a metric, `Search` with `k ≥ 1` on the tree built by `New` from `items` returns pairs
`(item, item.Distance(target))` of distinct positions of `items`, whose distances are the `k`
smallest distances below `math.MaxFloat64`, in non-decreasing order. -/
theorem Search_New_metric (Distance : α → α → ℚ) (hm : IsMetric Distance) (rnd : ℕ → ℕ)
    (items : List α) (target : α) (k : ℤ) (hk : 1 ≤ k) :
    ∃ (vp : VPTree α) (items1 : List α) (out disc : List (heapItem α)),
      New Distance rnd items = some (vp, items1) ∧
      Search Distance vp target k = some (out.map heapItem.Item, out.map heapItem.Dist) ∧
      out.map heapItem.Dist = nearestBelowMax Distance items target k.toNat ∧
      (out ++ disc).Perm (items.map (entry Distance target)) := by
  obtain ⟨vp, items1, hnew, hperm, hall⟩ := New_spec Distance rnd items
  obtain ⟨tau, out, disc, hsearch, hsorted, hpo, hlen, hle, hlt, hfull, hdisc⟩ :=
    Search_spec Distance target k (fun tau x => tau ≤ Distance x target)
      (discard_metric Distance target) hk vp (pruneOK_of_metric hm target vp.Root hall)
  have hpo2 : (out ++ disc).Perm (items.map (entry Distance target)) :=
    hpo.trans (hperm.map _)
  refine ⟨vp, items1, out, disc, hnew, hsearch, ?_, hpo2⟩
  unfold nearestBelowMax
  apply eq_take_sort_filter (out.map heapItem.Dist) (disc.map heapItem.Dist) _ k.toNat tau
    maxFloat64
  · exact (List.pairwise_map).mpr hsorted
  · have := (hpo2.map heapItem.Dist).symm
    rwa [entry_Dist_map, List.map_append] at this
  · intro a ha
    obtain ⟨e, he, rfl⟩ := List.mem_map.mp ha
    exact hle e he
  · intro a ha
    obtain ⟨e, he, rfl⟩ := List.mem_map.mp ha
    exact hlt e he
  · intro b hb
    obtain ⟨e, he, rfl⟩ := List.mem_map.mp hb
    have hmem : e ∈ items.map (entry Distance target) :=
      hpo2.subset (List.mem_append_right _ he)
    obtain ⟨x, _, rfl⟩ := List.mem_map.mp hmem
    exact hdisc _ he
  · simp only [List.length_map]
    omega
  · intro hne
    apply hfull
    simp only [List.length_map] at hne
    omega

end metricLemmas

section claims
variable {α : Type}

theorem absDist_metric : IsMetric absDist where
  nonneg := fun x y => abs_nonneg _
  eq_zero_iff := fun x y => by
    unfold absDist
    rw [abs_eq_zero, sub_eq_zero]
  symm := fun x y => abs_sub_comm x y
  triangle := fun x y z => abs_sub_le x y z

theorem discreteMax_metric : IsMetric discreteMax where
  nonneg := fun x y => by
    unfold discreteMax
    split_ifs
    · exact le_refl _
    · exact le_of_lt maxFloat64_pos
  eq_zero_iff := fun x y => by
    unfold discreteMax
    split_ifs with h
    · simp [h]
    · simp [h, ne_of_gt maxFloat64_pos]
  symm := fun x y => by
    unfold discreteMax
    simp [eq_comm]
  triangle := fun x y z => by
    have := maxFloat64_pos
    unfold discreteMax
    cases x <;> cases y <;> cases z <;> simp <;> linarith

theorem take_min_length (l : List ℚ) (k : ℕ) : l.take (min k l.length) = l.take k := by
  by_cases h : k ≤ l.length
  · rw [min_eq_left h]
  · rw [min_eq_right (by omega), List.take_length, List.take_of_length_le (by omega)]

theorem bruteForce_eq_nearestBelowMax (Distance : α → α → ℚ) (items : List α) (target : α)
    (k : ℕ) (hb : ∀ x ∈ items, Distance x target < maxFloat64) :
    bruteForce Distance items target k = nearestBelowMax Distance items target k := by
  unfold bruteForce nearestBelowMax
  have hf : (items.map (fun x => Distance x target)).filter (fun d => decide (d < maxFloat64)) =
      items.map (fun x => Distance x target) := by
    rw [List.filter_eq_self]
    intro a ha
    obtain ⟨x, hx, rfl⟩ := List.mem_map.mp ha
    simpa using hb x hx
  rw [hf]
  have hl : ((items.map (fun x => Distance x target)).insertionSort (· ≤ ·)).length =
      items.length := by
    rw [List.length_insertionSort, List.length_map]
  rw [← hl, take_min_length]

theorem nearestBelowMax_perm (Distance : α → α → ℚ) (items1 items2 : List α) (target : α)
    (k : ℕ) (hperm : items1.Perm items2) :
    nearestBelowMax Distance items1 target k = nearestBelowMax Distance items2 target k := by
  unfold nearestBelowMax
  congr 1
  apply List.eq_of_perm_of_sorted _ (List.sorted_insertionSort _ _)
    (List.sorted_insertionSort _ _)
  exact (List.perm_insertionSort _ _).trans
    ((((hperm.map _).filter _)).trans (List.perm_insertionSort _ _).symm)

/-- C1, as stated, fails: `discreteMax` is a metric, yet on the tree built from the single item
`true` the search for the nearest neighbour of `false` returns no pair, while the smallest
distance computed exhaustively is `math.MaxFloat64`: the test `dist < *tau` with `*tau`
initially `math.MaxFloat64` leaves the item out. -/
theorem C1_counterexample :
    IsMetric discreteMax ∧
    New discreteMax (fun _ => 0) [true] =
      some ({ Root := node.mk true 0 node.nil node.nil, Length := 0 }, [true]) ∧
    Search discreteMax { Root := node.mk true 0 node.nil node.nil, Length := 0 } false 1 =
      some ([], []) ∧
    bruteForce discreteMax [true] false 1 = [maxFloat64] ∧
    (([] : List ℚ) : Multiset ℚ) ≠ (bruteForce discreteMax [true] false 1 : Multiset ℚ) := by
  refine ⟨discreteMax_metric, by decide!, by decide!, by decide!, ?_⟩
  have h : bruteForce discreteMax [true] false 1 = [maxFloat64] := by decide!
  rw [h]
  simp

/-- C1, amended: brute-force equivalence for distances below `math.MaxFloat64`.  For every
list of items, every sequence of pivot choices, every target and every `k ≥ 1`, if `Distance` is
a metric and every `Distance(item, target)` is less than `math.MaxFloat64`, then `New` and
`Search` return, and the multiset of distances returned by `Search(target, k)` on `New(items)`
is the multiset of the `min(k, len(items))` smallest values of `Distance(item, target)`. -/
theorem C1_brute_force_equivalence (Distance : α → α → ℚ) (rnd : ℕ → ℕ) (items : List α)
    (target : α) (k : ℤ) (hm : IsMetric Distance) (hk : 1 ≤ k)
    (hb : ∀ x ∈ items, Distance x target < maxFloat64) :
    ∃ (vp : VPTree α) (items1 : List α) (results : List α) (distances : List ℚ),
      New Distance rnd items = some (vp, items1) ∧
      Search Distance vp target k = some (results, distances) ∧
      (distances : Multiset ℚ) = (bruteForce Distance items target k.toNat : Multiset ℚ) := by
  obtain ⟨vp, items1, out, disc, hnew, hsearch, hd, _⟩ :=
    Search_New_metric Distance hm rnd items target k hk
  refine ⟨vp, items1, _, _, hnew, hsearch, ?_⟩
  rw [hd, bruteForce_eq_nearestBelowMax Distance items target k.toNat hb]

/-- C1, amended, at the scenario items 0, 1, 5, 6 with target `1/2` and `k = 2`. -/
theorem C1_brute_force_equivalence_witness :
    ∃ (vp : VPTree ℚ) (items1 : List ℚ) (results : List ℚ) (distances : List ℚ),
      New absDist (fun _ => 0) [0, 1, 5, 6] = some (vp, items1) ∧
      Search absDist vp (1 / 2) 2 = some (results, distances) ∧
      (distances : Multiset ℚ) =
        (bruteForce absDist [0, 1, 5, 6] (1 / 2) (2 : ℤ).toNat : Multiset ℚ) :=
  C1_brute_force_equivalence absDist (fun _ => 0) [0, 1, 5, 6] (1 / 2) 2 absDist_metric
    (by decide) (by decide!)

theorem pruneOK_true (Distance : α → α → ℚ) (target : α) (n : node α) :
    PruneOK Distance target (fun _ _ => True) n := by
  induction n with
  | nil => trivial
  | mk item threshold left right ihl ihr =>
    exact ⟨⟨fun _ _ _ _ => trivial, fun _ _ _ _ => trivial⟩, ihl, ihr⟩

theorem discard_true (Distance : α → α → ℚ) (target : α) :
    Discard Distance target (fun _ _ => True) where
  mono := fun _ _ _ _ _ => trivial
  le := fun _ _ _ => trivial

/-- C2: for every tree built by `New` from a non-empty list, every target and every `k ≥ 1`,
`New` and `Search` return and the distances returned by `Search` are in non-decreasing order:
`distances[i] ≤ distances[i+1]` for every adjacent pair (and `distances[i] ≤ distances[j]` for
every `i < j`). -/
theorem C2_distances_sorted (Distance : α → α → ℚ) (rnd : ℕ → ℕ) (items : List α)
    (target : α) (k : ℤ) (_hne : items ≠ []) (hk : 1 ≤ k) :
    ∃ (vp : VPTree α) (items1 : List α) (results : List α) (distances : List ℚ),
      New Distance rnd items = some (vp, items1) ∧
      Search Distance vp target k = some (results, distances) ∧
      distances.Sorted (· ≤ ·) ∧
      ∀ (i : ℕ) (a b : ℚ), distances[i]? = some a → distances[i + 1]? = some b → a ≤ b := by
  obtain ⟨vp, items1, hnew, _, _⟩ := New_spec Distance rnd items
  obtain ⟨tau, out, disc, hsearch, hsorted, _⟩ :=
    Search_spec Distance target k (fun _ _ => True) (discard_true Distance target) hk vp
      (pruneOK_true Distance target vp.Root)
  have hs : (out.map heapItem.Dist).Sorted (· ≤ ·) := (List.pairwise_map).mpr hsorted
  refine ⟨vp, items1, _, _, hnew, hsearch, hs, ?_⟩
  intro i a b ha hb
  have hi : i + 1 < (out.map heapItem.Dist).length := by
    by_contra hc
    rw [List.getElem?_eq_none (not_lt.mp hc)] at hb
    cases hb
  rw [List.getElem?_eq_getElem (by omega)] at ha
  rw [List.getElem?_eq_getElem hi] at hb
  cases ha
  cases hb
  exact List.pairwise_iff_getElem.mp hs i (i + 1) (by omega) hi (by omega)

/-- C2 at the items 0, 1, 5, 6 with target 3 and `k = 3`. -/
theorem C2_distances_sorted_witness :
    ∃ (vp : VPTree ℚ) (items1 : List ℚ) (results : List ℚ) (distances : List ℚ),
      New absDist (fun n => n) [0, 1, 5, 6] = some (vp, items1) ∧
      Search absDist vp 3 3 = some (results, distances) ∧
      distances.Sorted (· ≤ ·) ∧
      ∀ (i : ℕ) (a b : ℚ), distances[i]? = some a → distances[i + 1]? = some b → a ≤ b :=
  C2_distances_sorted absDist (fun n => n) [0, 1, 5, 6] 3 3 (by decide) (by decide)

/-- With distances in `[0, math.MaxFloat64)`, `search` skips a subtree of a built tree only when
`*tau` is below `math.MaxFloat64`, that is when the queue is full. -/
theorem pruneOK_of_bounded {Distance : α → α → ℚ} (target : α) (n : node α)
    (hb : ∀ a ∈ n.items, (0 ≤ Distance a target ∧ Distance a target < maxFloat64) ∧
      ∀ b ∈ n.items, 0 ≤ Distance a b ∧ Distance a b < maxFloat64)
    (hall : n.All (BuiltNode Distance)) :
    PruneOK Distance target
      (fun tau x => tau < maxFloat64 ∨ ¬ Distance x target < maxFloat64) n := by
  induction n with
  | nil => trivial
  | mk item threshold left right ihl ihr =>
    obtain ⟨⟨_, _, hthr⟩, hl, hr⟩ := hall
    have hsubl : ∀ x ∈ left.items, x ∈ (node.mk item threshold left right).items := by
      intro x hx
      simp [node.items, hx]
    have hsubr : ∀ x ∈ right.items, x ∈ (node.mk item threshold left right).items := by
      intro x hx
      simp [node.items, hx]
    have hitem : item ∈ (node.mk item threshold left right).items := by
      simp [node.items]
    refine ⟨?_, ihl (fun a ha => ⟨(hb a (hsubl a ha)).1, fun b hb1 =>
        (hb a (hsubl a ha)).2 b (hsubl b hb1)⟩) hl,
      ihr (fun a ha => ⟨(hb a (hsubr a ha)).1, fun b hb1 =>
        (hb a (hsubr a ha)).2 b (hsubr b hb1)⟩) hr⟩
    have h0 : 0 ≤ threshold ∧ threshold < maxFloat64 := by
      rcases hthr with ⟨_, _, h⟩ | ⟨m, rest, hp, h, _⟩
      · rw [h]
        exact ⟨le_refl _, maxFloat64_pos⟩
      · rw [h]
        exact (hb m (hsubr m (hp.symm.subset (List.mem_cons_self _ _)))).2 item hitem
    have h1 := (hb item hitem).1
    constructor
    · intro tau hc x _
      left
      linarith [not_le.mp hc]
    · intro tau hc x _
      left
      linarith [not_le.mp hc]

theorem discard_bounded (Distance : α → α → ℚ) (target : α) :
    Discard Distance target
      (fun tau x => tau < maxFloat64 ∨ ¬ Distance x target < maxFloat64) where
  mono := fun _ _ _ h1 h2 => h2.imp (fun h => lt_of_le_of_lt h1 h) id
  le := fun t x h => by
    by_cases hx : Distance x target < maxFloat64
    · exact Or.inl (lt_of_le_of_lt h hx)
    · exact Or.inr hx

/-- C3, as stated, fails: on the tree built from the single item `false`, `Search(true, 1)`
returns no pair, while `min(k, len(items))` is 1: the distance `math.MaxFloat64` of the item
to the target is not below the initial `*tau`. -/
theorem C3_counterexample :
    New discreteMax (fun _ => 0) [false] =
      some ({ Root := node.mk false 0 node.nil node.nil, Length := 0 }, [false]) ∧
    Search discreteMax { Root := node.mk false 0 node.nil node.nil, Length := 0 } true 1 =
      some ([], []) ∧
    ([] : List Bool).length ≠ min (1 : ℤ).toNat [false].length := by
  refine ⟨by decide!, by decide!, by decide⟩

/-- Negative distances make `search` skip a subtree before the queue is full: with
`signedDist`, the tree built from the items 0, 1, 2 has the item 2 in the `Left` subtree of the
root, and `Search(3, 3)` returns two pairs only, because `dist - *tau <= n.Threshold` fails at the
root while `*tau` is still `math.MaxFloat64`. -/
theorem search_skips_negative_distance :
    New signedDist (fun _ => 0) [0, 1, 2] =
      some ({ Root := node.mk 0 (-(3 / 4) * maxFloat64) (node.mk 2 0 node.nil node.nil)
                (node.mk 1 0 node.nil node.nil), Length := 1 }, [2, 1, 2]) ∧
    Search signedDist
        { Root := node.mk 0 (-(3 / 4) * maxFloat64) (node.mk 2 0 node.nil node.nil)
            (node.mk 1 0 node.nil node.nil), Length := 1 } 3 3 =
      some ([1, 0], [0, maxFloat64 / 2]) := by
  constructor <;> decide!

/-- C3, amended: for every list of items, every target and every integer `k ≥ 0`, if the
distance of every item to the target and to every item is non-negative and less than
`math.MaxFloat64`, then `New` and `Search` return, the number of pairs returned by
`Search(target, k)` on `New(items)` is exactly `min(k, len(items))`, and the item list and the
distance list have the same length. -/
theorem C3_result_count (Distance : α → α → ℚ) (rnd : ℕ → ℕ) (items : List α)
    (target : α) (k : ℤ) (hk : 0 ≤ k)
    (hb : ∀ a ∈ items, (0 ≤ Distance a target ∧ Distance a target < maxFloat64) ∧
      ∀ b ∈ items, 0 ≤ Distance a b ∧ Distance a b < maxFloat64) :
    ∃ (vp : VPTree α) (items1 : List α) (results : List α) (distances : List ℚ),
      New Distance rnd items = some (vp, items1) ∧
      Search Distance vp target k = some (results, distances) ∧
      results.length = min k.toNat items.length ∧ distances.length = results.length := by
  obtain ⟨vp, items1, hnew, hperm, hall⟩ := New_spec Distance rnd items
  by_cases hk1 : k < 1
  · have hk0 : k = 0 := by omega
    refine ⟨vp, items1, [], [], hnew, by simp [Search, hk1], ?_, rfl⟩
    simp [hk0]
  · have hb1 : ∀ a ∈ vp.Root.items,
        (0 ≤ Distance a target ∧ Distance a target < maxFloat64) ∧
        ∀ b ∈ vp.Root.items, 0 ≤ Distance a b ∧ Distance a b < maxFloat64 :=
      fun a ha => ⟨(hb a (hperm.subset ha)).1, fun b hb2 =>
        (hb a (hperm.subset ha)).2 b (hperm.subset hb2)⟩
    obtain ⟨tau, out, disc, hsearch, _, hpo, hlen, _, _, hfull, hdisc⟩ :=
      Search_spec Distance target k _ (discard_bounded Distance target) (by omega) vp
        (pruneOK_of_bounded target vp.Root hb1 hall)
    refine ⟨vp, items1, _, _, hnew, hsearch, ?_, by simp⟩
    have hpo2 := hpo.trans (hperm.map (entry Distance target))
    have hcount : out.length + disc.length = items.length := by
      simpa using hpo2.length_eq
    simp only [List.length_map]
    by_cases hf : (out.length : ℤ) = k
    · omega
    · have htau := hfull hf
      have hnil : disc = [] := by
        cases disc with
        | nil => rfl
        | cons e t =>
          exfalso
          have hmem : e ∈ items.map (entry Distance target) :=
            hpo2.subset (List.mem_append_right _ (List.mem_cons_self _ _))
          obtain ⟨x, hx, rfl⟩ := List.mem_map.mp hmem
          rcases hdisc _ (List.mem_cons_self _ _) with h | h
          · rw [htau] at h
            exact lt_irrefl _ h
          · exact h (hb x hx).1.2
      rw [hnil] at hcount
      simp only [List.length_nil, Nat.add_zero] at hcount
      omega

/-- C3, amended, at the items 0, 1, 5, 6 with target `1/2` and `k = 3`. -/
theorem C3_result_count_witness :
    ∃ (vp : VPTree ℚ) (items1 : List ℚ) (results : List ℚ) (distances : List ℚ),
      New absDist (fun n => n + 1) [0, 1, 5, 6] = some (vp, items1) ∧
      Search absDist vp (1 / 2) 3 = some (results, distances) ∧
      results.length = min (3 : ℤ).toNat [(0 : ℚ), 1, 5, 6].length ∧
      distances.length = results.length :=
  C3_result_count absDist (fun n => n + 1) [0, 1, 5, 6] (1 / 2) 3 (by decide) (by decide!)

/-- C4: the code at failing inputs.  On a list of one item `New` returns a tree whose `Length`
is 0, not 1; on the four items at positions 0, 1, 5, 6, with the first item of the range always
chosen as pivot, the tree has four nodes and its `Length` is 0.  The statement `vp.Length++` is
executed only inside the partition loop, once for every item moved to the near side, so neither
the item of a node nor the items sent to the far side are counted. -/
theorem C4_Length_not_item_count (Distance : α → α → ℚ) (rnd : ℕ → ℕ) (x : α) :
    (New Distance rnd [x] =
        some ({ Root := node.mk x 0 node.nil node.nil, Length := 0 }, [x]) ∧
      (0 : ℕ) ≠ [x].length) ∧
    (New absDist (fun _ => 0) [0, 1, 5, 6] =
        some ({ Root := node.mk 0 1 node.nil (node.mk 1 4 node.nil
                  (node.mk 5 1 node.nil (node.mk 6 0 node.nil node.nil))),
                Length := 0 }, [6, 6, 6, 6]) ∧
      (0 : ℕ) ≠ [(0 : ℚ), 1, 5, 6].length) := by
  refine ⟨⟨?_, by simp⟩, by decide!, by decide⟩
  simp [New, buildFromPoints, subslice, Nat.mod_one]

/-- C5, as stated, fails: in the tree built from the items at positions 0 and 1, with the first
item chosen as pivot, the root has `Threshold` 1 and its `Right` subtree stores the item 1,
whose distance to the root's item is exactly 1, not strictly greater: the median candidate,
which defines `pivotDist`, is itself placed at the start of the far range. -/
theorem C5_counterexample :
    New absDist (fun _ => 0) [0, 1] =
      some ({ Root := node.mk 0 1 node.nil (node.mk 1 0 node.nil node.nil), Length := 0 },
        [1, 1]) ∧
    ¬ node.All (fun item threshold _ right => ∀ x ∈ right.items, threshold < absDist x item)
      (node.mk (0 : ℚ) 1 node.nil (node.mk 1 0 node.nil node.nil)) := by
  refine ⟨by decide!, ?_⟩
  intro h
  have := h.1 1 (by simp [node.items])
  exact absurd this (by decide!)

/-- C5, amended: for every tree built by `New` and every node of it, every item stored in the
far (`Right`) subtree has distance to the node's item greater than or equal to the node's
`Threshold`; when the node is not a leaf, the `Right` subtree stores one item, the median
candidate, at distance exactly `Threshold`, and every other item it stores is at distance
strictly greater than `Threshold` (so every other item of the remaining range at distance
`pivotDist` is in the near subtree). -/
theorem C5_far_subtree (Distance : α → α → ℚ) (rnd : ℕ → ℕ) (items : List α) :
    ∃ (vp : VPTree α) (items1 : List α), New Distance rnd items = some (vp, items1) ∧
      vp.Root.All (fun item threshold left right =>
        (∀ x ∈ right.items, threshold ≤ Distance x item) ∧
        ((left = node.nil ∧ right = node.nil) ∨
          ∃ m rest, right.items.Perm (m :: rest) ∧ Distance m item = threshold ∧
            ∀ x ∈ rest, threshold < Distance x item)) := by
  obtain ⟨vp, items1, hnew, _, hall⟩ := New_spec Distance rnd items
  refine ⟨vp, items1, hnew, node.All.imp ?_ vp.Root hall⟩
  intro item threshold left right ⟨_, hr, h⟩
  refine ⟨hr, ?_⟩
  rcases h with ⟨h1, h2, _⟩ | ⟨m, rest, h1, h2, h3⟩
  · exact Or.inl ⟨h1, h2⟩
  · exact Or.inr ⟨m, rest, h1, h2.symm, h3⟩

/-- C6: for every list of items and every sequence of pivot choices, `New` returns, the
multiset of items stored in the nodes of `New(items)` equals the multiset of the input items,
and the number of nodes equals `len(items)`. -/
theorem C6_items_preserved (Distance : α → α → ℚ) (rnd : ℕ → ℕ) (items : List α) :
    ∃ (vp : VPTree α) (items1 : List α), New Distance rnd items = some (vp, items1) ∧
      (vp.Root.items : Multiset α) = (items : Multiset α) ∧
      vp.Root.count = items.length := by
  obtain ⟨vp, items1, hnew, hperm, _⟩ := New_spec Distance rnd items
  refine ⟨vp, items1, hnew, Multiset.coe_eq_coe.mpr hperm, ?_⟩
  rw [node.count_eq_length_items, hperm.length_eq]

theorem take_sort_filter_head (L : List ℚ) (M : ℚ) (k : ℕ) (hk : 1 ≤ k)
    (hnn : ∀ a ∈ L, 0 ≤ a) (h0 : (0 : ℚ) ∈ L) (hM : 0 < M) :
    ∃ t, ((L.filter (fun d => d < M)).insertionSort (· ≤ ·)).take k = 0 :: t := by
  have hmem : (0 : ℚ) ∈ (L.filter (fun d => decide (d < M))).insertionSort (· ≤ ·) := by
    apply (List.perm_insertionSort _ _).symm.subset
    exact List.mem_filter.mpr ⟨h0, by simpa using hM⟩
  have hsorted := List.sorted_insertionSort (· ≤ ·) (L.filter (fun d => decide (d < M)))
  have hsub : ∀ a ∈ (L.filter (fun d => decide (d < M))).insertionSort (· ≤ ·), 0 ≤ a := by
    intro a ha
    exact hnn a (List.mem_of_mem_filter ((List.perm_insertionSort _ _).subset ha))
  generalize (L.filter (fun d => decide (d < M))).insertionSort (· ≤ ·) = S at hmem hsorted hsub
  cases S with
  | nil => simp at hmem
  | cons a t =>
    have ha0 : a = 0 := by
      apply le_antisymm _ (hsub a (List.mem_cons_self _ _))
      rcases List.mem_cons.mp hmem with h | h
      · exact le_of_eq h.symm
      · exact List.rel_of_sorted_cons hsorted 0 h
    obtain ⟨k1, rfl⟩ : ∃ k1, k = k1 + 1 := ⟨k - 1, by omega⟩
    exact ⟨t.take k1, by rw [ha0, List.take_succ_cons]⟩

/-- C7: for every tree built by `New` over a metric `Distance`, every `k ≥ 1` and every target
that is one of the indexed items, `New` and `Search` return, and the first pair returned by
`Search` has distance 0 and its item is at distance 0 from the target: it is the target. -/
theorem C7_target_first (Distance : α → α → ℚ) (rnd : ℕ → ℕ) (items : List α)
    (target : α) (k : ℤ) (hm : IsMetric Distance) (hk : 1 ≤ k) (ht : target ∈ items) :
    ∃ (vp : VPTree α) (items1 : List α) (results : List α) (distances : List ℚ),
      New Distance rnd items = some (vp, items1) ∧
      Search Distance vp target k = some (results, distances) ∧
      ∃ r, results.head? = some r ∧ distances.head? = some 0 ∧
        Distance r target = 0 ∧ r = target := by
  obtain ⟨vp, items1, out, disc, hnew, hsearch, hd, hpo⟩ :=
    Search_New_metric Distance hm rnd items target k hk
  refine ⟨vp, items1, _, _, hnew, hsearch, ?_⟩
  obtain ⟨t, ht0⟩ := take_sort_filter_head (items.map (fun x => Distance x target)) maxFloat64
    k.toNat (by omega)
    (by
      intro a ha
      obtain ⟨x, _, rfl⟩ := List.mem_map.mp ha
      exact hm.nonneg x target)
    (List.mem_map.mpr ⟨target, ht, (hm.eq_zero_iff target target).mpr rfl⟩)
    maxFloat64_pos
  have hd0 : out.map heapItem.Dist = 0 :: t := by
    rw [hd]
    exact ht0
  cases out with
  | nil => simp at hd0
  | cons e out1 =>
    have he : e.Dist = 0 := by
      simp only [List.map_cons, List.cons.injEq] at hd0
      exact hd0.1
    have hmem : e ∈ items.map (entry Distance target) :=
      hpo.subset (List.mem_append_left _ (List.mem_cons_self _ _))
    obtain ⟨x, _, rfl⟩ := List.mem_map.mp hmem
    have hx0 : Distance x target = 0 := he
    refine ⟨x, rfl, ?_, hx0, (hm.eq_zero_iff x target).mp hx0⟩
    simp only [List.map_cons, List.head?_cons]
    rw [he]

/-- C7 at the items 0, 1, 5, 6 with the indexed item 5 as target and `k = 2`. -/
theorem C7_target_first_witness :
    ∃ (vp : VPTree ℚ) (items1 : List ℚ) (results : List ℚ) (distances : List ℚ),
      New absDist (fun n => 2 * n) [0, 1, 5, 6] = some (vp, items1) ∧
      Search absDist vp 5 2 = some (results, distances) ∧
      ∃ r, results.head? = some r ∧ distances.head? = some 0 ∧
        absDist r 5 = 0 ∧ r = 5 :=
  C7_target_first absDist (fun n => 2 * n) [0, 1, 5, 6] 5 2 absDist_metric (by decide)
    (by decide!)

/-- C8: build-order and seed independence.  For every two lists of items that are permutations
of each other, every two sequences of pivot choices, every target and every `k`, if `Distance`
is a metric then `New` returns on both lists and `Search(target, k)` returns the same list of
distances on the two trees. -/
theorem C8_order_and_seed_independence (Distance : α → α → ℚ) (rnd1 rnd2 : ℕ → ℕ)
    (items1 items2 : List α) (target : α) (k : ℤ) (hm : IsMetric Distance)
    (hperm : items1.Perm items2) :
    ∃ (vp1 vp2 : VPTree α) (after1 after2 : List α) (results1 results2 : List α)
      (distances : List ℚ),
      New Distance rnd1 items1 = some (vp1, after1) ∧
      New Distance rnd2 items2 = some (vp2, after2) ∧
      Search Distance vp1 target k = some (results1, distances) ∧
      Search Distance vp2 target k = some (results2, distances) := by
  by_cases hk : k < 1
  · obtain ⟨vp1, after1, hnew1, _, _⟩ := New_spec Distance rnd1 items1
    obtain ⟨vp2, after2, hnew2, _, _⟩ := New_spec Distance rnd2 items2
    exact ⟨vp1, vp2, after1, after2, [], [], [], hnew1, hnew2, by simp [Search, hk],
      by simp [Search, hk]⟩
  · obtain ⟨vp1, after1, out1, _, hnew1, hsearch1, hd1, _⟩ :=
      Search_New_metric Distance hm rnd1 items1 target k (by omega)
    obtain ⟨vp2, after2, out2, _, hnew2, hsearch2, hd2, _⟩ :=
      Search_New_metric Distance hm rnd2 items2 target k (by omega)
    have heq := nearestBelowMax_perm Distance items1 items2 target k.toNat hperm
    refine ⟨vp1, vp2, after1, after2, out1.map heapItem.Item, out2.map heapItem.Item,
      out1.map heapItem.Dist, hnew1, hnew2, hsearch1, ?_⟩
    rw [hd1, heq, ← hd2]
    exact hsearch2

/-- C8 at two orders of the items 0, 1, 5, 6 and two streams of draws. -/
theorem C8_order_and_seed_independence_witness :
    ∃ (vp1 vp2 : VPTree ℚ) (after1 after2 : List ℚ) (results1 results2 : List ℚ)
      (distances : List ℚ),
      New absDist (fun _ => 0) [0, 1, 5, 6] = some (vp1, after1) ∧
      New absDist (fun n => n + 2) [6, 0, 5, 1] = some (vp2, after2) ∧
      Search absDist vp1 3 3 = some (results1, distances) ∧
      Search absDist vp2 3 3 = some (results2, distances) :=
  C8_order_and_seed_independence absDist (fun _ => 0) (fun n => n + 2) [0, 1, 5, 6]
    [6, 0, 5, 1] 3 3 absDist_metric (by decide!)

/-- C9: for every tree, every target and every `k < 1`, `Search` returns an empty item list
and an empty distance list, and it makes no call of `Distance`. -/
theorem C9_k_below_one (Distance : α → α → ℚ) (vp : VPTree α) (target : α) (k : ℤ)
    (hk : k < 1) :
    Search Distance vp target k = some ([], []) ∧ SearchEvals Distance vp target k = 0 := by
  simp [Search, SearchEvals, hk]

/-- C9 at a two-node tree with `k = -3`. -/
theorem C9_k_below_one_witness :
    Search absDist { Root := node.mk 0 1 node.nil (node.mk 1 0 node.nil node.nil), Length := 0 }
        (1 / 2) (-3) = some ([], []) ∧
    SearchEvals absDist
        { Root := node.mk 0 1 node.nil (node.mk 1 0 node.nil node.nil), Length := 0 }
        (1 / 2) (-3) = 0 :=
  C9_k_below_one absDist _ (1 / 2) (-3) (by decide)

theorem scenario_near (x : ℚ) (hx : x ∈ [(0 : ℚ), 1, 5, 6]) (hd : absDist x (1 / 2) = 1 / 2) :
    x = 0 ∨ x = 1 := by
  simp only [List.mem_cons, List.mem_singleton, List.not_mem_nil, or_false] at hx
  rcases hx with rfl | rfl | rfl | rfl
  · exact Or.inl rfl
  · exact Or.inr rfl
  · exact absurd hd (by decide!)
  · exact absurd hd (by decide!)

/-- C10: the concrete scenario.  With items at the positions 0, 1, 5, 6 in any input order,
`Distance` the absolute difference, and any sequence of pivot choices, `New` returns and
`Search` with target `1/2` and `k = 2` returns exactly the two items 0 and 1, in some order,
each with distance `1/2`. -/
theorem C10_scenario (rnd : ℕ → ℕ) (items : List ℚ) (hperm : items.Perm [0, 1, 5, 6]) :
    ∃ (vp : VPTree ℚ) (items1 : List ℚ) (results : List ℚ) (distances : List ℚ),
      New absDist rnd items = some (vp, items1) ∧
      Search absDist vp (1 / 2) 2 = some (results, distances) ∧
      results.Perm [0, 1] ∧ distances = [1 / 2, 1 / 2] := by
  obtain ⟨vp, items1, out, disc, hnew, hsearch, hd, hpo⟩ :=
    Search_New_metric absDist absDist_metric rnd items (1 / 2) 2 (by decide)
  have hd2 : out.map heapItem.Dist = [1 / 2, 1 / 2] := by
    rw [hd, nearestBelowMax_perm absDist items [0, 1, 5, 6] (1 / 2) _ hperm]
    decide!
  refine ⟨vp, items1, _, _, hnew, hsearch, ?_, hd2⟩
  have hnd : (out ++ disc).Nodup := by
    apply hpo.nodup_iff.mpr
    apply List.Nodup.map _ (hperm.nodup_iff.mpr (by decide!))
    intro a b hab
    have := congrArg heapItem.Item hab
    exact this
  have hmem : ∀ e ∈ out, e.Dist = 1 / 2 → e.Item = 0 ∨ e.Item = 1 := by
    intro e he hde
    have h1 : e ∈ items.map (entry absDist (1 / 2)) := hpo.subset (List.mem_append_left _ he)
    obtain ⟨x, hx, rfl⟩ := List.mem_map.mp h1
    exact scenario_near x (hperm.subset hx) hde
  match out, hd2, hnd, hmem with
  | [a, b], hd2, hnd, hmem =>
    simp only [List.map_cons, List.map_nil, List.cons.injEq, and_true] at hd2
    have hab : a ≠ b := by
      intro h
      simp [h] at hnd
    have hne : a.Item ≠ b.Item := by
      intro h
      apply hab
      cases a
      cases b
      simp only [heapItem.mk.injEq]
      exact ⟨h, hd2.1.trans hd2.2.symm⟩
    rcases hmem a (by simp) hd2.1 with ha | ha <;> rcases hmem b (by simp) hd2.2 with hb | hb
    · exact absurd (ha.trans hb.symm) hne
    · simp [ha, hb]
    · simp only [List.map_cons, List.map_nil, ha, hb]
      exact List.Perm.swap 0 1 []
    · exact absurd (ha.trans hb.symm) hne
  | [], hd2, _, _ => simp at hd2
  | [_], hd2, _, _ => simp at hd2
  | _ :: _ :: _ :: _, hd2, _, _ => simp at hd2

/-- C10 at the input order 5, 0, 6, 1. -/
theorem C10_scenario_witness :
    ∃ (vp : VPTree ℚ) (items1 : List ℚ) (results : List ℚ) (distances : List ℚ),
      New absDist (fun n => 3 * n + 1) [5, 0, 6, 1] = some (vp, items1) ∧
      Search absDist vp (1 / 2) 2 = some (results, distances) ∧
      results.Perm [0, 1] ∧ distances = [1 / 2, 1 / 2] :=
  C10_scenario (fun n => 3 * n + 1) [5, 0, 6, 1] (by decide!)

theorem New_single (Distance : α → α → ℚ) (rnd : ℕ → ℕ) (x : α) :
    New Distance rnd [x] =
      some ({ Root := node.mk x 0 node.nil node.nil, Length := 0 }, [x]) := by
  simp [New, buildFromPoints, subslice, Nat.mod_one]

/-- C11, as stated, fails: with the metric `discreteMax`, the index built from the single item
`true` and the target `false`, `Search(false, 1)` returns no pair, not the pair of `true` and
its distance `math.MaxFloat64` to the target: the test `dist < *tau` fails at the root.  When a
pair is returned its distance is `X.Distance(Y)`: with `signedDist`, which is not symmetric,
the index built from the item 0 and the target 3 give the distance `signedDist 0 3`, which
differs from `signedDist 3 0`. -/
theorem C11_counterexample :
    New discreteMax (fun n => n + 1) [true] =
      some ({ Root := node.mk true 0 node.nil node.nil, Length := 0 }, [true]) ∧
    Search discreteMax { Root := node.mk true 0 node.nil node.nil, Length := 0 } false 1 =
      some ([], []) ∧
    discreteMax true false = maxFloat64 ∧
    (([], []) : List Bool × List ℚ) ≠ ([true], [discreteMax true false]) ∧
    Search signedDist { Root := node.mk 0 0 node.nil node.nil, Length := 0 } 3 1 =
      some ([0], [signedDist 0 3]) ∧
    signedDist 0 3 ≠ signedDist 3 0 := by
  refine ⟨by decide!, by decide!, by decide!, by decide!, by decide!, by decide!⟩

/-- C11, amended: single-item index.  For every item `X` and every target `Y` with
`X.Distance(Y)` less than `math.MaxFloat64`, `New([X])` and `Search(Y, 1)` return, and `Search`
returns exactly one pair, whose item is `X` and whose distance is `X.Distance(Y)`, which is
the distance between the target and the item when `Distance` is symmetric. -/
theorem C11_single_item (Distance : α → α → ℚ) (rnd : ℕ → ℕ) (X Y : α)
    (hlt : Distance X Y < maxFloat64) :
    ∃ (vp : VPTree α) (items1 : List α), New Distance rnd [X] = some (vp, items1) ∧
      Search Distance vp Y 1 = some ([X], [Distance X Y]) := by
  refine ⟨_, _, New_single Distance rnd X, ?_⟩
  simp [Search, search, visit, hlt, priorityQueue.Len, heapPush, priorityQueue.Push, up,
    priorityQueue.Top, node.isNil, drain, heapPop, priorityQueue.Swap, swapAt, down,
    priorityQueue.Pop, reverseLoop]

/-- C11, amended, at the item 0 and the target `1/2` of the one-dimensional scenario. -/
theorem C11_single_item_witness :
    ∃ (vp : VPTree ℚ) (items1 : List ℚ), New absDist (fun _ => 0) [0] = some (vp, items1) ∧
      Search absDist vp (1 / 2) 1 = some ([0], [absDist 0 (1 / 2)]) :=
  C11_single_item absDist (fun _ => 0) 0 (1 / 2) (by decide!)

/-- C12: the code at the failing input.  On the string `"T"`, `CleanHash` panics: the string
has the prefix `"T"` and one byte only, so the slice expression `hash[2:]` is out of range.  On
every other string it returns what the claim says: the string without its first two bytes when
it starts with `"T"`, and in both cases without its newlines. -/
theorem C12_CleanHash_panics_on_T :
    potash.CleanHash potash.strT = none ∧
    ∀ hash : potash.GoString, potash.CleanHash hash =
      if hash = potash.strT then none
      else if potash.HasPrefix hash potash.strT then some (potash.removeNewlines (hash.drop 2))
      else some (potash.removeNewlines hash) := by
  refine ⟨by decide, ?_⟩
  intro hash
  match hash with
  | [] => simp [potash.CleanHash, potash.HasPrefix, potash.strT]
  | [b] =>
    by_cases hb : b = 84
    · subst hb
      simp [potash.CleanHash, potash.HasPrefix, potash.strT, subslice]
    · simp [potash.CleanHash, potash.HasPrefix, potash.strT, hb]
  | b :: c :: t =>
    by_cases hb : b = 84
    · subst hb
      simp [potash.CleanHash, potash.HasPrefix, potash.strT, subslice]
    · simp [potash.CleanHash, potash.HasPrefix, potash.strT, hb]

/-- C13: for every tree built by `New` and every node of it, every item stored in the near
(`Left`) subtree has distance to the node's item less than or equal to the node's
`Threshold`. -/
theorem C13_near_subtree (Distance : α → α → ℚ) (rnd : ℕ → ℕ) (items : List α) :
    ∃ (vp : VPTree α) (items1 : List α), New Distance rnd items = some (vp, items1) ∧
      vp.Root.All (fun item threshold left _ =>
        ∀ x ∈ left.items, Distance x item ≤ threshold) := by
  obtain ⟨vp, items1, hnew, _, hall⟩ := New_spec Distance rnd items
  exact ⟨vp, items1, hnew, node.All.imp (fun _ _ _ _ h => h.1) vp.Root hall⟩

theorem SearchCap_eq_Search (Distance : α → α → ℚ) (maxCap : ℕ) (vp : VPTree α) (target : α)
    (k : ℤ) (hcap : k ≤ (maxCap : ℤ)) :
    SearchCap Distance maxCap vp target k = Search Distance vp target k := by
  by_cases hk : k < 1
  · simp [SearchCap, Search, hk]
  · have h0 : 0 ≤ k := by omega
    simp [SearchCap, Search, hk, makePriorityQueue, h0, hcap]

theorem SearchCap_cap_out_of_range (Distance : α → α → ℚ) (maxCap : ℕ) (vp : VPTree α)
    (target : α) (k : ℤ) (hcap : (maxCap : ℤ) < k) :
    SearchCap Distance maxCap vp target k = none := by
  have hk : ¬ k < 1 := by omega
  have hc : ¬ k ≤ (maxCap : ℤ) := by omega
  simp [SearchCap, hk, makePriorityQueue, hc]

/-- C14 (counterexample): `New` on the empty list gives the tree with no root node, and on that
tree `Search(target, math.MaxInt64)` does not return two empty lists: it panics in
`make(priorityQueue, 0, k)`, here with the capacity bound `2 ^ 45` of linux/amd64. -/
theorem C14_counterexample :
    New absDist (fun _ => 0) [] = some ({ Root := node.nil, Length := 0 }, []) ∧
    SearchCap absDist (2 ^ 45) ({ Root := node.nil, Length := 0 } : VPTree ℚ) 0 maxInt64 =
      none := by
  refine ⟨by simp [New, buildFromPoints], ?_⟩
  apply SearchCap_cap_out_of_range
  norm_num [maxInt64]

/-- C14 (amended): empty index.  `New` on an empty list of items returns a tree with no root
node; for every target and every `k` up to the largest capacity that `make` grants (every
`k < 1` included), `Search` on that tree returns an empty item list and an empty distance list;
for every larger `k`, `Search` panics in `make(priorityQueue, 0, k)`. -/
theorem C14_empty_index (Distance : α → α → ℚ) (rnd : ℕ → ℕ) (target : α) (maxCap : ℕ)
    (k : ℤ) :
    ∃ (vp : VPTree α) (items1 : List α), New Distance rnd [] = some (vp, items1) ∧
      vp.Root = node.nil ∧
      (k ≤ (maxCap : ℤ) → SearchCap Distance maxCap vp target k = some ([], [])) ∧
      ((maxCap : ℤ) < k → SearchCap Distance maxCap vp target k = none) := by
  refine ⟨{ Root := node.nil, Length := 0 }, [], by simp [New, buildFromPoints], rfl, ?_, ?_⟩
  · intro hcap
    rw [SearchCap_eq_Search Distance maxCap _ target k hcap]
    by_cases hk : k < 1
    · simp [Search, hk]
    · simp [Search, hk, search, drain, reverseLoop, priorityQueue.Len]
  · exact SearchCap_cap_out_of_range Distance maxCap _ target k

theorem zip_Item_Dist (out : List (heapItem α)) :
    List.zip (out.map heapItem.Item) (out.map heapItem.Dist) =
      out.map (fun e => (e.Item, e.Dist)) := by
  induction out with
  | nil => rfl
  | cons e t ih => simp [ih]

/-- C15 (counterexample): on the tree built from the items 0 and 1, `Search(1/2, k)` with
`k = math.MaxInt64 ≥ 1` does not return: it panics in `make(priorityQueue, 0, k)` before the
traversal, here with the capacity bound `2 ^ 45` of linux/amd64. -/
theorem C15_counterexample :
    New absDist (fun _ => 0) [0, 1] =
      some ({ Root := node.mk 0 1 node.nil (node.mk 1 0 node.nil node.nil), Length := 0 },
        [1, 1]) ∧
    1 ≤ maxInt64 ∧
    SearchCap absDist (2 ^ 45)
      { Root := node.mk 0 1 node.nil (node.mk 1 0 node.nil node.nil), Length := 0 }
      (1 / 2) maxInt64 = none := by
  refine ⟨by decide!, by norm_num [maxInt64], ?_⟩
  apply SearchCap_cap_out_of_range
  norm_num [maxInt64]

/-- C15 (amended): `Search` is crash-free and sound for an arbitrary `Distance`, up to the
capacity that `make` grants.  For every tree built by `New`, every target and every `k ≥ 1`:
when `k` is at most the largest capacity that `make` grants, `Search` returns (no panic: no
`Top` or pop of an empty heap, no index out of range), the two lists have the same length, and
the returned pairs `(item, d)` are, with multiplicity, among the pairs
`(x, x.Distance(target))` of the items `x` stored in the nodes of the tree: each pair is an item
of a distinct node with its distance to the target; when `k` is larger, `Search` panics in
`make(priorityQueue, 0, k)`. -/
theorem C15_search_safe (Distance : α → α → ℚ) (rnd : ℕ → ℕ) (items : List α) (target : α)
    (maxCap : ℕ) (k : ℤ) (hk : 1 ≤ k) :
    ∃ (vp : VPTree α) (items1 : List α), New Distance rnd items = some (vp, items1) ∧
      (k ≤ (maxCap : ℤ) → ∃ (results : List α) (distances : List ℚ),
        SearchCap Distance maxCap vp target k = some (results, distances) ∧
        results.length = distances.length ∧
        (List.zip results distances).Subperm
          (vp.Root.items.map (fun x => (x, Distance x target)))) ∧
      ((maxCap : ℤ) < k → SearchCap Distance maxCap vp target k = none) := by
  obtain ⟨vp, items1, hnew, _, _⟩ := New_spec Distance rnd items
  refine ⟨vp, items1, hnew, ?_, SearchCap_cap_out_of_range Distance maxCap vp target k⟩
  intro hcap
  obtain ⟨tau, out, disc, hsearch, _, hperm, _⟩ :=
    Search_spec Distance target k (fun _ _ => True) (discard_true Distance target) hk vp
      (pruneOK_true Distance target vp.Root)
  rw [← SearchCap_eq_Search Distance maxCap vp target k hcap] at hsearch
  refine ⟨_, _, hsearch, by simp, ?_⟩
  have hzip := zip_Item_Dist out
  have hmap : vp.Root.items.map (fun x => (x, Distance x target)) =
      (vp.Root.items.map (entry Distance target)).map (fun e => (e.Item, e.Dist)) := by
    rw [List.map_map]
    rfl
  rw [hzip, hmap]
  have hsub : out.Sublist (out ++ disc) := List.sublist_append_left out disc
  exact (hsub.map _).subperm.trans (hperm.map _).subperm

/-- C15 at the items 0, 1, 5, 6 with target 3, `k = 2` and the capacity bound `2 ^ 45`. -/
theorem C15_search_safe_witness :
    ∃ (vp : VPTree ℚ) (items1 : List ℚ) (results : List ℚ) (distances : List ℚ),
      New absDist (fun n => n) [0, 1, 5, 6] = some (vp, items1) ∧
      SearchCap absDist (2 ^ 45) vp 3 2 = some (results, distances) ∧
      results.length = distances.length ∧
      (List.zip results distances).Subperm
        (vp.Root.items.map (fun x => (x, absDist x 3))) :=
  let ⟨vp, items1, hnew, hok, _⟩ :=
    C15_search_safe absDist (fun n => n) [0, 1, 5, 6] 3 (2 ^ 45) 2 (by decide)
  let ⟨results, distances, h⟩ := hok (by norm_num)
  ⟨vp, items1, results, distances, hnew, h⟩

/-- C16: the code at a failing input.  For the items at positions 0, 1, 5, 6 with the first
item of the range chosen as pivot, the root's remaining range is `[6, 1, 5]`, the median
candidate is the item 1 at index 1 and `pivotDist` is 1; after the median candidate is moved to
the end the partition loop ends with `storeIndex = 0`, so no item is sent to the near side and
all three are sent to the far side: the root has an empty `Left` subtree and a `Right` subtree
of three nodes. -/
theorem C16_split_not_balanced :
    partitionLoop absDist 0 (absDist 1 0) [6, 5, 1] 0 = some ([6, 5, 1], 0, 0) ∧
    New absDist (fun _ => 0) [0, 1, 5, 6] =
      some ({ Root := node.mk 0 1 node.nil (node.mk 1 4 node.nil
                (node.mk 5 1 node.nil (node.mk 6 0 node.nil node.nil))),
              Length := 0 }, [6, 6, 6, 6]) ∧
    (node.nil : node ℚ).count = 0 ∧
    (node.mk (1 : ℚ) 4 node.nil (node.mk 5 1 node.nil (node.mk 6 0 node.nil node.nil))).count
      = 3 := by
  refine ⟨by decide!, by decide!, by decide!, by decide!⟩

end claims

section traceLemmas
variable {α : Type}

theorem Follows.same {Distance : α → α → ℚ} {target : α} {k : ℤ} {s : ℚ × priorityQueue α}
    (ok : HeapOK Distance target k s.1 s.2) : Follows Distance target k s s :=
  ⟨[], Reach.refl ok⟩

theorem Follows.andThen {Distance : α → α → ℚ} {target : α} {k : ℤ}
    {a b c : ℚ × priorityQueue α} (h1 : Follows Distance target k a b)
    (h2 : Follows Distance target k b c) : Follows Distance target k a c := by
  obtain ⟨i1, r1⟩ := h1
  obtain ⟨i2, r2⟩ := h2
  exact ⟨i1 ++ i2, r1.trans (discard_true Distance target) r2⟩

theorem Reach.heapOK {Distance : α → α → ℚ} {target : α} {k : ℤ} {G : ℚ → α → Prop}
    {items : List α} {tau tau1 : ℚ} {h h1 : priorityQueue α}
    (r : Reach Distance target k G items tau h tau1 h1) : HeapOK Distance target k tau1 h1 := by
  obtain ⟨_, ok, _⟩ := r
  exact ok

theorem TraceOK.start {Distance : α → α → ℚ} {target : α} {k : ℤ} {s : ℚ × priorityQueue α}
    (ok : HeapOK Distance target k s.1 s.2) : TraceOK Distance target k s [] s where
  whole := Reach.refl ok
  prefixes := by
    intro T1 s1 T2 h
    simp at h
  toEnd := by simp
  chain := List.Pairwise.nil

theorem TraceOK.single {Distance : α → α → ℚ} {target : α} {k : ℤ} {item : α}
    {s0 s1 : ℚ × priorityQueue α}
    (r : Reach Distance target k (fun _ _ => True) [item] s0.1 s0.2 s1.1 s1.2) :
    TraceOK Distance target k s0 [(item, s1)] s1 where
  whole := r
  prefixes := by
    intro T1 s T2 h
    cases T1 with
    | nil =>
      simp only [List.nil_append, List.cons.injEq] at h
      rw [← h.1]
      exact r
    | cons a t =>
      simp only [List.cons_append, List.cons.injEq] at h
      have := h.2
      simp at this
  toEnd := by
    intro s hs
    have : s = (item, s1) := by simpa using hs
    rw [this]
    exact Follows.same r.heapOK
  chain := List.pairwise_singleton _ _

theorem TraceOK.append {Distance : α → α → ℚ} {target : α} {k : ℤ}
    {s0 s1 s2 : ℚ × priorityQueue α} {T1 T2 : List (α × ℚ × priorityQueue α)}
    (t1 : TraceOK Distance target k s0 T1 s1) (t2 : TraceOK Distance target k s1 T2 s2) :
    TraceOK Distance target k s0 (T1 ++ T2) s2 where
  whole := by
    rw [List.map_append]
    exact t1.whole.trans (discard_true Distance target) t2.whole
  prefixes := by
    intro A s B h
    rcases List.append_eq_append_iff.mp h with ⟨C, hA, hT2⟩ | ⟨C, hT1, hB⟩
    · have r2 := t2.prefixes C s B hT2
      have := t1.whole.trans (discard_true Distance target) r2
      rw [hA]
      simpa [List.map_append] using this
    · cases C with
      | nil =>
        simp only [List.nil_append, List.append_nil] at hB hT1
        have r2 := t2.prefixes [] s B hB.symm
        have := t1.whole.trans (discard_true Distance target) r2
        rw [← hT1]
        simpa [List.map_append] using this
      | cons c C1 =>
        simp only [List.cons_append, List.cons.injEq] at hB
        rw [← hB.1] at hT1
        exact t1.prefixes A s C1 hT1
  toEnd := by
    intro s hs
    rcases List.mem_append.mp hs with h | h
    · exact (t1.toEnd s h).andThen ⟨_, t2.whole⟩
    · exact t2.toEnd s h
  chain := by
    rw [List.pairwise_append]
    refine ⟨t1.chain, t2.chain, ?_⟩
    intro a ha b hb
    obtain ⟨X, Y, hXY⟩ := List.append_of_mem hb
    exact (t1.toEnd a ha).andThen ⟨_, t2.prefixes X b Y hXY⟩

end traceLemmas

section traceLemmas
variable {α : Type}

/-- The conditional descent `if c { vp.search(n, ...) }` of `search`, with its trace. -/
theorem descendTrace_spec {Distance : α → α → ℚ} {target : α} {k : ℤ}
    (n : node α) (c : Prop) [Decidable c]
    (ih : ∀ tau h, HeapOK Distance target k tau h →
      ∃ tau1 h1, search Distance n tau target k h = some (tau1, h1) ∧
        TraceOK Distance target k (tau, h) (searchTrace Distance n tau target k h) (tau1, h1))
    (tau : ℚ) (h : priorityQueue α) (ok : HeapOK Distance target k tau h) :
    ∃ tau1 h1, (if c then search Distance n tau target k h else some (tau, h)) = some (tau1, h1) ∧
      TraceOK Distance target k (tau, h)
        (if c then searchTrace Distance n tau target k h else []) (tau1, h1) := by
  by_cases hc : c
  · simpa only [hc, if_true] using ih tau h ok
  · simp only [hc, if_false]
    exact ⟨tau, h, rfl, TraceOK.start ok⟩

theorem searchTrace_spec (Distance : α → α → ℚ) (target : α) (k : ℤ) (hk : 1 ≤ k)
    (n : node α) :
    ∀ tau h, HeapOK Distance target k tau h →
      ∃ tau1 h1, search Distance n tau target k h = some (tau1, h1) ∧
        TraceOK Distance target k (tau, h) (searchTrace Distance n tau target k h)
          (tau1, h1) := by
  induction n with
  | nil =>
    intro tau h ok
    exact ⟨tau, h, rfl, TraceOK.start ok⟩
  | mk item threshold left right ihl ihr =>
    intro tau h ok
    obtain ⟨tau1, h1, hv, r1⟩ := visit_spec Distance target k (fun _ _ => True)
      (discard_true Distance target) hk item tau h ok
    have ok1 : HeapOK Distance target k tau1 h1 := r1.heapOK
    have t1 : TraceOK Distance target k (tau, h) [(item, tau1, h1)] (tau1, h1) :=
      TraceOK.single r1
    simp only [search, searchTrace, hv]
    by_cases hleaf : (left.isNil && right.isNil) = true
    · simp only [hleaf, if_true]
      exact ⟨tau1, h1, rfl, t1⟩
    · simp only [hleaf]
      by_cases hside : Distance item target < threshold
      · simp only [hside, if_true]
        obtain ⟨tau2, h2, e2, t2⟩ := descendTrace_spec left
          (Distance item target - tau1 ≤ threshold) ihl tau1 h1 ok1
        have ok2 : HeapOK Distance target k tau2 h2 := t2.whole.heapOK
        obtain ⟨tau3, h3, e3, t3⟩ := descendTrace_spec right
          (Distance item target + tau2 ≥ threshold) ihr tau2 h2 ok2
        simp only [e2, e3]
        refine ⟨tau3, h3, by simp, ?_⟩
        have := t1.append (t2.append t3)
        simpa using this
      · simp only [hside, if_false]
        obtain ⟨tau2, h2, e2, t2⟩ := descendTrace_spec right
          (Distance item target + tau1 ≥ threshold) ihr tau1 h1 ok1
        have ok2 : HeapOK Distance target k tau2 h2 := t2.whole.heapOK
        obtain ⟨tau3, h3, e3, t3⟩ := descendTrace_spec left
          (Distance item target - tau2 ≤ threshold) ihl tau2 h2 ok2
        simp only [e2, e3]
        refine ⟨tau3, h3, by simp, ?_⟩
        have := t1.append (t2.append t3)
        simpa using this

end traceLemmas

section traceLemmas
variable {α : Type}

/-- In a sorted list whose entry at index `i` is above `tau`, at most `i` entries are at most
`tau`. -/
theorem length_filter_le_of_sorted (L : List ℚ) (hs : L.Sorted (· ≤ ·)) (i : ℕ) (v tau : ℚ)
    (hv : L[i]? = some v) (hlt : tau < v) :
    (L.filter (fun d => decide (d ≤ tau))).length ≤ i := by
  have hi : i < L.length := by
    by_contra hc
    rw [List.getElem?_eq_none (not_lt.mp hc)] at hv
    cases hv
  rw [List.getElem?_eq_getElem hi] at hv
  have hv1 : L[i] = v := Option.some.inj hv
  have hdrop : (L.drop i).filter (fun d => decide (d ≤ tau)) = [] := by
    rw [List.filter_eq_nil_iff]
    intro x hx
    obtain ⟨j, hj, rfl⟩ := List.getElem_of_mem hx
    have hij : i + j < L.length := by
      simp only [List.length_drop] at hj
      omega
    simp only [List.getElem_drop, decide_eq_true_eq, not_le]
    have hle : L[i] ≤ L[i + j] := by
      by_cases h0 : j = 0
      · simp [h0]
      · exact List.pairwise_iff_getElem.mp hs i (i + j) hi hij (by omega)
    rw [hv1] at hle
    exact lt_of_lt_of_le hlt hle
  have hsplit : L.filter (fun d => decide (d ≤ tau)) =
      (L.take i).filter (fun d => decide (d ≤ tau)) := by
    conv_lhs => rw [← List.take_append_drop i L, List.filter_append, hdrop, List.append_nil]
  rw [hsplit]
  exact le_trans (List.length_filter_le _ _) (by simp)

/-- If `k` of the values of `V`, counted with multiplicity, are at most `tau`, then the `k`-th
smallest value of `V` is at most `tau`. -/
theorem kth_smallest_le (S V : List ℚ) (k : ℕ) (tau : ℚ) (hk : 1 ≤ k)
    (hsub : S.Subperm V) (hlen : S.length = k) (hle : ∀ a ∈ S, a ≤ tau) (v : ℚ)
    (hv : (V.insertionSort (· ≤ ·))[k - 1]? = some v) : v ≤ tau := by
  by_contra hc
  have h1 := length_filter_le_of_sorted (V.insertionSort (· ≤ ·))
    (List.sorted_insertionSort _ _) (k - 1) v tau hv (not_le.mp hc)
  have hS : S.filter (fun d => decide (d ≤ tau)) = S := by
    rw [List.filter_eq_self]
    intro a ha
    simpa using hle a ha
  have h2 : (S.filter (fun d => decide (d ≤ tau))).Subperm
      ((V.insertionSort (· ≤ ·)).filter (fun d => decide (d ≤ tau))) :=
    (hsub.trans (List.perm_insertionSort _ _).symm.subperm).filter _
  have h3 := h2.length_le
  rw [hS, hlen] at h3
  omega

end traceLemmas

section traceLemmas
variable {α : Type}

theorem SearchTrace_spec (Distance : α → α → ℚ) (vp : VPTree α) (target : α) (k : ℤ)
    (hk : 1 ≤ k) :
    ∃ tau1 h1, search Distance vp.Root maxFloat64 target k [] = some (tau1, h1) ∧
      TraceOK Distance target k (maxFloat64, []) (SearchTrace Distance vp target k)
        (tau1, h1) := by
  have : SearchTrace Distance vp target k =
      searchTrace Distance vp.Root maxFloat64 target k [] := by
    simp [SearchTrace, not_lt.mpr hk]
  rw [this]
  exact searchTrace_spec Distance target k hk vp.Root maxFloat64 []
    (HeapOK.init Distance target k hk)

end traceLemmas

section claims
variable {α : Type}

/-- C17: heap bound.  In a call `Search(target, k)` with `k ≥ 1`, on any tree: after every
node visit the priority queue holds at most `k` entries, and once it holds `k` entries it holds
`k` entries after every later node visit.  Inside a visit that inserts (`dist < *tau`): when the
queue holds `k` entries `heap.Pop` first takes one out, leaving `k - 1`, and `heap.Push` brings
it back to `k`; when it holds fewer, `heap.Push` adds one; no operation panics.  A visit that
does not insert leaves the queue as it is.  The call returns at most `k` pairs. -/
theorem C17_heap_bound (Distance : α → α → ℚ) (vp : VPTree α) (target : α) (k : ℤ)
    (hk : 1 ≤ k) :
    (∀ s ∈ SearchTrace Distance vp target k, (s.2.2.length : ℤ) ≤ k) ∧
    (SearchTrace Distance vp target k).Pairwise
      (fun a b => (a.2.2.length : ℤ) = k → (b.2.2.length : ℤ) = k) ∧
    (∀ (item : α) (dist tau : ℚ) (h : priorityQueue α),
      IsHeap h ∧ (h.length : ℤ) = k ∧ dist < tau →
      ∃ m h1 h2 tau1, heapPop h = some (m, h1) ∧ (h1.length : ℤ) = k - 1 ∧
        heapPush h1 { Item := item, Dist := dist } = some h2 ∧ (h2.length : ℤ) = k ∧
        visit item dist tau k h = some (tau1, h2)) ∧
    (∀ (item : α) (dist tau : ℚ) (h : priorityQueue α),
      IsHeap h ∧ (h.length : ℤ) < k ∧ dist < tau →
      ∃ h2 tau1, heapPush h { Item := item, Dist := dist } = some h2 ∧
        h2.length = h.length + 1 ∧ visit item dist tau k h = some (tau1, h2)) ∧
    (∀ (item : α) (dist tau : ℚ) (h : priorityQueue α),
      ¬ dist < tau → visit item dist tau k h = some (tau, h)) ∧
    ∃ results distances, Search Distance vp target k = some (results, distances) ∧
      (results.length : ℤ) ≤ k := by
  obtain ⟨tau1, h1, _, tr⟩ := SearchTrace_spec Distance vp target k hk
  refine ⟨?_, ?_, ?_, ?_, ?_, ?_⟩
  · intro s hs
    obtain ⟨X, Y, hXY⟩ := List.append_of_mem hs
    exact (tr.prefixes X s Y hXY).heapOK.len
  · refine tr.chain.imp ?_
    intro a b hab
    obtain ⟨_, _, _, _, _, _, hfull⟩ := hab
    exact hfull
  · rintro item dist tau h ⟨hheap, hlen, hlt⟩
    have hne : h ≠ [] := by
      intro e
      rw [e] at hlen
      simp at hlen
      omega
    obtain ⟨m, hp, hpop, _, hperm, hheap1, _⟩ := heapPop_spec h hheap hne
    obtain ⟨h2, hpush, hperm2, _⟩ := heapPush_spec hp { Item := item, Dist := dist } hheap1
    have e1 := hperm.length_eq
    have e2 := hperm2.length_eq
    simp only [List.length_cons] at e1 e2
    have hl2 : (h2.length : ℤ) = k := by omega
    have hpos2 : 0 < h2.length := by omega
    refine ⟨m, hp, h2, h2[0].Dist, hpop, by omega, hpush, hl2, ?_⟩
    simp only [visit, hlt, if_true, priorityQueue.Len, hlen, hpop, Option.map_some', hpush,
      hl2, priorityQueue.Top, List.getElem?_eq_getElem hpos2]
  · rintro item dist tau h ⟨hheap, hlen, hlt⟩
    obtain ⟨h2, hpush, hperm2, _⟩ := heapPush_spec h { Item := item, Dist := dist } hheap
    have e2 := hperm2.length_eq
    simp only [List.length_cons] at e2
    have hne : ¬ (h.length : ℤ) = k := by omega
    by_cases hfull2 : (h2.length : ℤ) = k
    · have hpos2 : 0 < h2.length := by omega
      refine ⟨h2, h2[0].Dist, hpush, e2, ?_⟩
      simp only [visit, hlt, if_true, priorityQueue.Len, hne, if_false, hpush, hfull2,
        priorityQueue.Top, List.getElem?_eq_getElem hpos2]
    · refine ⟨h2, tau, hpush, e2, ?_⟩
      simp only [visit, hlt, if_true, priorityQueue.Len, hne, if_false, hpush, hfull2]
  · intro item dist tau h hlt
    simp only [visit, hlt, if_false]
  · obtain ⟨tau, out, disc, hsearch, _, _, hlen, _⟩ :=
      Search_spec Distance target k (fun _ _ => True) (discard_true Distance target) hk vp
        (pruneOK_true Distance target vp.Root)
    exact ⟨_, _, hsearch, by simpa using hlen⟩

/-- C17 at the tree with root 0 and far child 1, target `1/2` and `k = 1`. -/
theorem C17_heap_bound_witness :
    (∀ s ∈ SearchTrace absDist
        { Root := node.mk 0 1 node.nil (node.mk 1 0 node.nil node.nil), Length := 0 } (1 / 2) 1,
      (s.2.2.length : ℤ) ≤ 1) ∧
    (SearchTrace absDist
        { Root := node.mk 0 1 node.nil (node.mk 1 0 node.nil node.nil), Length := 0 }
        (1 / 2) 1).Pairwise
      (fun a b => (a.2.2.length : ℤ) = 1 → (b.2.2.length : ℤ) = 1) ∧
    (∀ (item : ℚ) (dist tau : ℚ) (h : priorityQueue ℚ),
      IsHeap h ∧ (h.length : ℤ) = 1 ∧ dist < tau →
      ∃ m h1 h2 tau1, heapPop h = some (m, h1) ∧ (h1.length : ℤ) = 1 - 1 ∧
        heapPush h1 { Item := item, Dist := dist } = some h2 ∧ (h2.length : ℤ) = 1 ∧
        visit item dist tau 1 h = some (tau1, h2)) ∧
    (∀ (item : ℚ) (dist tau : ℚ) (h : priorityQueue ℚ),
      IsHeap h ∧ (h.length : ℤ) < 1 ∧ dist < tau →
      ∃ h2 tau1, heapPush h { Item := item, Dist := dist } = some h2 ∧
        h2.length = h.length + 1 ∧ visit item dist tau 1 h = some (tau1, h2)) ∧
    (∀ (item : ℚ) (dist tau : ℚ) (h : priorityQueue ℚ),
      ¬ dist < tau → visit item dist tau 1 h = some (tau, h)) ∧
    ∃ results distances,
      Search absDist
        { Root := node.mk 0 1 node.nil (node.mk 1 0 node.nil node.nil), Length := 0 }
        (1 / 2) 1 = some (results, distances) ∧
      (results.length : ℤ) ≤ 1 :=
  C17_heap_bound absDist
    { Root := node.mk 0 1 node.nil (node.mk 1 0 node.nil node.nil), Length := 0 } (1 / 2) 1
    (by decide)

/-- C18: pruning-radius invariant.  In a call `Search(target, k)` with `k ≥ 1`, on any tree,
for the states after the node visits, in order: `*tau` is never above its initial value
`math.MaxFloat64` and never increases from one node visit to a later one; while the queue
holds fewer than `k` entries `*tau` is `math.MaxFloat64`; whenever the queue holds `k` entries
`*tau` is the largest `Dist` stored in it, and so `*tau` is an upper bound on the `k`-th
smallest distance `v` among the nodes visited so far (before the queue holds `k` entries
`*tau` bounds `v` as well when `v` is at most `math.MaxFloat64`, as every finite `float64`
is). -/
theorem C18_tau_invariant (Distance : α → α → ℚ) (vp : VPTree α) (target : α) (k : ℤ)
    (hk : 1 ≤ k) :
    (∀ s ∈ SearchTrace Distance vp target k, s.2.1 ≤ maxFloat64) ∧
    (SearchTrace Distance vp target k).Pairwise (fun a b => b.2.1 ≤ a.2.1) ∧
    (∀ s ∈ SearchTrace Distance vp target k,
      (s.2.2.length : ℤ) < k → s.2.1 = maxFloat64) ∧
    (∀ s ∈ SearchTrace Distance vp target k, (s.2.2.length : ℤ) = k →
      (∃ e ∈ s.2.2, e.Dist = s.2.1) ∧ ∀ e ∈ s.2.2, e.Dist ≤ s.2.1) ∧
    (∀ T1 s T2 v, SearchTrace Distance vp target k = T1 ++ s :: T2 ∧
      (((T1 ++ [s]).map (fun x => Distance x.1 target)).insertionSort (· ≤ ·))[k.toNat - 1]?
        = some v ∧ ((s.2.2.length : ℤ) = k ∨ v ≤ maxFloat64) → v ≤ s.2.1) := by
  obtain ⟨tau1, h1, _, tr⟩ := SearchTrace_spec Distance vp target k hk
  have hok : ∀ s ∈ SearchTrace Distance vp target k, HeapOK Distance target k s.2.1 s.2.2 := by
    intro s hs
    obtain ⟨X, Y, hXY⟩ := List.append_of_mem hs
    exact (tr.prefixes X s Y hXY).heapOK
  refine ⟨?_, ?_, ?_, ?_, ?_⟩
  · intro s hs
    exact (hok s hs).tau_le_max hk
  · refine tr.chain.imp ?_
    intro a b hab
    obtain ⟨_, _, _, hle, _⟩ := hab
    exact hle
  · intro s hs hlt
    rw [(hok s hs).tau_eq, tauOf, if_neg (by omega)]
  · intro s hs hfull
    have ok := hok s hs
    have hpos : 0 < s.2.2.length := by omega
    refine ⟨⟨s.2.2[0], List.getElem_mem _, ?_⟩, ok.le_tau⟩
    rw [ok.tau_eq, tauOf, if_pos hfull, keyAt_of_lt _ 0 hpos]
  · rintro T1 s T2 v ⟨hT, hv, hvmax⟩
    obtain ⟨disc, ok, _, hperm, _, _⟩ := tr.prefixes T1 s T2 hT
    by_cases hfull : (s.2.2.length : ℤ) = k
    · have hsub : (s.2.2.map heapItem.Dist).Subperm
          ((T1 ++ [s]).map (fun x => Distance x.1 target)) := by
        have h1 : (s.2.2 ++ disc).Perm
            (((T1 ++ [s]).map Prod.fst).map (entry Distance target)) := by
          simpa using hperm
        have h2 := h1.map heapItem.Dist
        rw [entry_Dist_map, List.map_map] at h2
        have h3 : (s.2.2.map heapItem.Dist).Sublist ((s.2.2 ++ disc).map heapItem.Dist) :=
          (List.sublist_append_left _ _).map _
        exact h3.subperm.trans h2.subperm
      exact kth_smallest_le _ _ k.toNat s.2.1 (by omega) hsub
        (by simp only [List.length_map]; omega)
        (by
          intro a ha
          obtain ⟨e, he, rfl⟩ := List.mem_map.mp ha
          exact ok.le_tau e he) v hv
    · rw [ok.tau_eq, tauOf, if_neg hfull]
      exact hvmax.resolve_left hfull

/-- C18 at the tree with root 0 and far child 1, target `1/2` and `k = 1`. -/
theorem C18_tau_invariant_witness :
    (∀ s ∈ SearchTrace absDist
        { Root := node.mk 0 1 node.nil (node.mk 1 0 node.nil node.nil), Length := 0 } (1 / 2) 1,
      s.2.1 ≤ maxFloat64) ∧
    (SearchTrace absDist
        { Root := node.mk 0 1 node.nil (node.mk 1 0 node.nil node.nil), Length := 0 }
        (1 / 2) 1).Pairwise (fun a b => b.2.1 ≤ a.2.1) ∧
    (∀ s ∈ SearchTrace absDist
        { Root := node.mk 0 1 node.nil (node.mk 1 0 node.nil node.nil), Length := 0 } (1 / 2) 1,
      (s.2.2.length : ℤ) < 1 → s.2.1 = maxFloat64) ∧
    (∀ s ∈ SearchTrace absDist
        { Root := node.mk 0 1 node.nil (node.mk 1 0 node.nil node.nil), Length := 0 } (1 / 2) 1,
      (s.2.2.length : ℤ) = 1 →
      (∃ e ∈ s.2.2, e.Dist = s.2.1) ∧ ∀ e ∈ s.2.2, e.Dist ≤ s.2.1) ∧
    (∀ T1 s T2 v,
      SearchTrace absDist
        { Root := node.mk 0 1 node.nil (node.mk 1 0 node.nil node.nil), Length := 0 }
        (1 / 2) 1 = T1 ++ s :: T2 ∧
      (((T1 ++ [s]).map (fun x => absDist x.1 (1 / 2))).insertionSort (· ≤ ·))[
        (1 : ℤ).toNat - 1]? = some v ∧ ((s.2.2.length : ℤ) = 1 ∨ v ≤ maxFloat64) →
        v ≤ s.2.1) :=
  C18_tau_invariant absDist
    { Root := node.mk 0 1 node.nil (node.mk 1 0 node.nil node.nil), Length := 0 } (1 / 2) 1
    (by decide)

/-- The trace of `Search(1/2, 1)` on the tree with root 0 and far child 1: both nodes are
visited, the queue holds one entry after each visit. -/
theorem SearchTrace_example :
    SearchTrace absDist
      { Root := node.mk 0 1 node.nil (node.mk 1 0 node.nil node.nil), Length := 0 } (1 / 2) 1 =
      [(0, 1 / 2, [{ Item := 0, Dist := 1 / 2 }]), (1, 1 / 2, [{ Item := 0, Dist := 1 / 2 }])] := by
  decide!

/-- C19: threshold definition.  For every call of `buildFromPoints` on a range of two or more
items (so that the remaining range, after the pivot is taken out, has `len(items) - 1 ≥ 1`
items), the call returns a node whose `Item` is the pivot, the item at the drawn index, and
whose `Threshold` is the distance from the item `m` at index `(len(items) - 1) / 2` of the
remaining range to the pivot; `m` is stored in the `Right` subtree, which is not nil.  In the
tree returned, every node is a leaf or has a non-nil `Right` subtree holding an item whose
distance to the node's item is the node's `Threshold`. -/
theorem C19_threshold_definition (Distance : α → α → ℚ) (rnd : ℕ → ℕ) (fuel : ℕ)
    (items : List α) (Length pos : ℕ) (hfuel : items.length < fuel) (h2 : 2 ≤ items.length) :
    ∃ (item last m : α) (left right : node α) (items1 : List α) (Length1 pos1 : ℕ),
      items[rnd pos % items.length]? = some item ∧
      items[items.length - 1]? = some last ∧
      ((items.set (rnd pos % items.length) last).take (items.length - 1))[
        (items.length - 1) / 2]? = some m ∧
      buildFromPoints Distance rnd fuel items Length pos =
        some (node.mk item (Distance m item) left right, items1, Length1, pos1) ∧
      m ∈ right.items ∧ right ≠ node.nil ∧
      (node.mk item (Distance m item) left right).All (fun item1 threshold left1 right1 =>
        (left1 = node.nil ∧ right1 = node.nil) ∨
        (right1 ≠ node.nil ∧ ∃ m1 ∈ right1.items, threshold = Distance m1 item1)) := by
  obtain ⟨fuel1, rfl⟩ : ∃ fuel1, fuel = fuel1 + 1 := ⟨fuel - 1, by omega⟩
  obtain ⟨item, last, m, near, tail, left, right, near1, far1, Length2, Length3, pos2, pos3,
    hitem, hlast, hm, _, _, _, _, _, hbuild, _, hpr⟩ :=
    buildFromPoints_step Distance rnd fuel1 items Length pos hfuel h2
  have hmem : m ∈ right.items := hpr.symm.subset (List.mem_cons_self _ _)
  have hne : ∀ (r : node α) (x : α), x ∈ r.items → r ≠ node.nil := by
    intro r x hx e
    rw [e] at hx
    simp [node.items] at hx
  obtain ⟨n, s, L1, p1, hb, _, hall⟩ :=
    buildFromPoints_spec Distance rnd (fuel1 + 1) items Length pos hfuel
  rw [hbuild] at hb
  have hn : n = node.mk item (Distance m item) left right := by
    have := Option.some.inj hb
    exact (congrArg Prod.fst this).symm
  rw [hn] at hall
  refine ⟨item, last, m, left, right, _, _, _, hitem, hlast, hm, hbuild, hmem,
    hne right m hmem, node.All.imp ?_ _ hall⟩
  intro item1 threshold left1 right1 ⟨_, _, h⟩
  rcases h with ⟨e1, e2, _⟩ | ⟨m1, rest, hp, ht, _⟩
  · exact Or.inl ⟨e1, e2⟩
  · have hm1 : m1 ∈ right1.items := hp.symm.subset (List.mem_cons_self _ _)
    exact Or.inr ⟨hne right1 m1 hm1, m1, hm1, ht⟩

/-- C19 at the call on the items 0, 1, 5, 6 with 5 units of fuel. -/
theorem C19_threshold_definition_witness :
    ∃ (item last m : ℚ) (left right : node ℚ) (items1 : List ℚ) (Length1 pos1 : ℕ),
      [(0 : ℚ), 1, 5, 6][(fun n => n) 0 % [(0 : ℚ), 1, 5, 6].length]? = some item ∧
      [(0 : ℚ), 1, 5, 6][[(0 : ℚ), 1, 5, 6].length - 1]? = some last ∧
      (([(0 : ℚ), 1, 5, 6].set ((fun n => n) 0 % [(0 : ℚ), 1, 5, 6].length) last).take
        ([(0 : ℚ), 1, 5, 6].length - 1))[([(0 : ℚ), 1, 5, 6].length - 1) / 2]? = some m ∧
      buildFromPoints absDist (fun n => n) 5 [0, 1, 5, 6] 0 0 =
        some (node.mk item (absDist m item) left right, items1, Length1, pos1) ∧
      m ∈ right.items ∧ right ≠ node.nil ∧
      (node.mk item (absDist m item) left right).All (fun item1 threshold left1 right1 =>
        (left1 = node.nil ∧ right1 = node.nil) ∨
        (right1 ≠ node.nil ∧ ∃ m1 ∈ right1.items, threshold = absDist m1 item1)) :=
  C19_threshold_definition absDist (fun n => n) 5 [0, 1, 5, 6] 0 0 (by decide) (by decide)

/-- C20: totality of build.  For every list of items, every stream of draws and every amount
of fuel above `len(items)`, `buildFromPoints` returns (it does not run out of fuel and no index
or slice bound is out of range), and the tree has `len(items)` nodes.  When the range has two
or more items, the two recursive calls are on ranges `near` and `far` that are strictly shorter
than the current range, and whose sizes sum to the size of the current range minus one. -/
theorem C20_build_total (Distance : α → α → ℚ) (rnd : ℕ → ℕ) (items : List α)
    (Length pos extra : ℕ) :
    ∃ (n : node α) (items1 : List α) (Length1 pos1 : ℕ),
      buildFromPoints Distance rnd (items.length + 1 + extra) items Length pos =
        some (n, items1, Length1, pos1) ∧
      n.count = items.length ∧
      (2 ≤ items.length →
        ∃ (item : α) (threshold : ℚ) (left right : node α) (near far near1 far1 : List α)
          (Length2 Length3 pos2 : ℕ),
          n = node.mk item threshold left right ∧
          buildFromPoints Distance rnd (items.length + extra) near (Length + near.length)
            (pos + 1) = some (left, near1, Length2, pos2) ∧
          buildFromPoints Distance rnd (items.length + extra) far Length2 pos2 =
            some (right, far1, Length3, pos1) ∧
          near.length < items.length ∧ far.length < items.length ∧
          near.length + far.length = items.length - 1) := by
  obtain ⟨n, s, L1, p1, hb, hperm, _⟩ :=
    buildFromPoints_spec Distance rnd (items.length + 1 + extra) items Length pos (by omega)
  refine ⟨n, s, L1, p1, hb, ?_, ?_⟩
  · rw [node.count_eq_length_items, hperm.length_eq]
  · intro h2
    have hfuel : items.length + 1 + extra = (items.length + extra) + 1 := by omega
    obtain ⟨item, last, m, near, tail, left, right, near1, far1, Length2, Length3, pos2, pos3,
      _, _, _, hp, _, _, hbl, hbr, hbuild, _, _⟩ :=
      buildFromPoints_step Distance rnd (items.length + extra) items Length pos (by omega) h2
    rw [hfuel, hbuild] at hb
    have hinj := Option.some.inj hb
    have hn : n = node.mk item (Distance m item) left right := (congrArg Prod.fst hinj).symm
    have hp1 : p1 = pos3 := (congrArg (fun x => x.2.2.2) hinj).symm
    have hlen := hp.length_eq
    simp only [List.length_append, List.length_take, List.length_set, List.length_cons] at hlen
    refine ⟨item, Distance m item, left, right, near, m :: tail, near1, far1, Length2, Length3,
      pos2, hn, hbl, hp1 ▸ hbr, ?_, ?_, ?_⟩
    · omega
    · simp only [List.length_cons]
      omega
    · simp only [List.length_cons]
      omega

end claims

section queueLemmas
variable {α : Type}

theorem runOps_isHeap (ops : List (heapOp α)) :
    ∀ (h0 h : priorityQueue α), IsHeap h0 → runOps ops h0 = some h → IsHeap h := by
  induction ops with
  | nil =>
    intro h0 h hp hr
    simp only [runOps, Option.some.injEq] at hr
    exact hr ▸ hp
  | cons op ops ih =>
    intro h0 h hp hr
    cases op with
    | push x =>
      obtain ⟨h1, e1, -, hp1⟩ := heapPush_spec h0 x hp
      simp only [runOps, e1] at hr
      exact ih h1 h hp1 hr
    | pop =>
      by_cases hne : h0 = []
      · subst hne
        simp [runOps, heapPop, priorityQueue.Swap, swapAt, priorityQueue.Len] at hr
      · obtain ⟨m, h1, e1, -, -, hp1, -⟩ := heapPop_spec h0 hp hne
        simp only [runOps, e1] at hr
        exact ih h1 h hp1 hr

theorem swapAt_map {β : Type} (f : α → β) (s : List α) (i j : ℕ) :
    swapAt (s.map f) i j = (swapAt s i j).map (List.map f) := by
  unfold swapAt
  simp only [List.getElem?_map]
  cases s[i]? <;> cases s[j]? <;> simp [List.map_set]

theorem Less_relabel {β : Type} (g : α → β) (h : priorityQueue α) (i j : ℕ) :
    priorityQueue.Less (h.map (heapItem.relabel g)) i j = priorityQueue.Less h i j := by
  unfold priorityQueue.Less
  simp only [List.getElem?_map]
  cases h[i]? <;> cases h[j]? <;> simp [heapItem.relabel]

theorem up_relabel {β : Type} (g : α → β) (fuel : ℕ) :
    ∀ (h : priorityQueue α) (j : ℕ),
      up fuel (h.map (heapItem.relabel g)) j = (up fuel h j).map (List.map (heapItem.relabel g)) := by
  induction fuel with
  | zero => intro h j; simp [up]
  | succ fuel ih =>
    intro h j
    simp only [up, Less_relabel, priorityQueue.Swap, swapAt_map]
    split_ifs with hij
    · simp
    · cases hl : priorityQueue.Less h j ((j - 1) / 2) with
      | none => simp
      | some c =>
        cases c with
        | false => simp
        | true =>
          cases hs : swapAt h ((j - 1) / 2) j with
          | none => simp
          | some h1 => simpa using ih h1 ((j - 1) / 2)

theorem down_relabel {β : Type} (g : α → β) (fuel : ℕ) :
    ∀ (h : priorityQueue α) (i n : ℕ),
      down fuel (h.map (heapItem.relabel g)) i n =
        (down fuel h i n).map (List.map (heapItem.relabel g)) := by
  induction fuel with
  | zero => intro h i n; simp [down]
  | succ fuel ih =>
    intro h i n
    simp only [down, Less_relabel, priorityQueue.Swap, swapAt_map]
    by_cases h1 : 2 * i + 1 ≥ n
    · simp [h1]
    · simp only [if_neg h1]
      generalize (if 2 * i + 1 + 1 < n then priorityQueue.Less h (2 * i + 1 + 1) (2 * i + 1)
          else some false) = oc
      cases oc with
      | none => simp
      | some c =>
        simp only
        cases hl : priorityQueue.Less h (if c = true then 2 * i + 1 + 1 else 2 * i + 1) i with
        | none => simp
        | some b =>
          cases b with
          | false => simp
          | true =>
            cases hs : swapAt h i (if c = true then 2 * i + 1 + 1 else 2 * i + 1) with
            | none => simp
            | some h2 => simpa using ih h2 _ n

theorem heapPush_relabel {β : Type} (g : α → β) (h : priorityQueue α) (x : heapItem α) :
    heapPush (h.map (heapItem.relabel g)) (x.relabel g) =
      (heapPush h x).map (List.map (heapItem.relabel g)) := by
  have e : priorityQueue.Push (h.map (heapItem.relabel g)) (x.relabel g) =
      (priorityQueue.Push h x).map (heapItem.relabel g) := by
    simp [priorityQueue.Push]
  simp only [heapPush, e, up_relabel]
  simp [priorityQueue.Len]

theorem heapPop_relabel {β : Type} (g : α → β) (h : priorityQueue α) :
    heapPop (h.map (heapItem.relabel g)) =
      (heapPop h).map (fun r => (r.1.relabel g, r.2.map (heapItem.relabel g))) := by
  simp only [heapPop, priorityQueue.Swap, swapAt_map, priorityQueue.Len, List.length_map]
  cases hs : swapAt h 0 (h.length - 1) with
  | none => simp
  | some h1 =>
    simp only [Option.map_some', down_relabel]
    cases hd : down (h.length - 1 + 1) h1 0 (h.length - 1) with
    | none => simp
    | some h2 =>
      simp only [Option.map_some', priorityQueue.Pop, List.getElem?_map, List.length_map]
      cases h2[h2.length - 1]? <;> simp [List.map_take]

theorem runOps_append (a b : List (heapOp α)) :
    ∀ h : priorityQueue α, runOps (a ++ b) h = (runOps a h).bind (runOps b) := by
  induction a with
  | nil => intro h; simp [runOps]
  | cons op a ih =>
    intro h
    cases op with
    | push x =>
      simp only [List.cons_append, runOps]
      cases heapPush h x with
      | none => simp
      | some h1 => simpa using ih h1
    | pop =>
      simp only [List.cons_append, runOps]
      cases heapPop h with
      | none => simp
      | some r => simpa using ih r.2

theorem runOps_relabel {β : Type} (g : α → β) (ops : List (heapOp α)) :
    ∀ h : priorityQueue α,
      runOps (ops.map (heapOp.relabel g)) (h.map (heapItem.relabel g)) =
        (runOps ops h).map (List.map (heapItem.relabel g)) := by
  induction ops with
  | nil => intro h; simp [runOps]
  | cons op ops ih =>
    intro h
    cases op with
    | push x =>
      simp only [List.map_cons, heapOp.relabel, runOps, heapPush_relabel]
      cases heapPush h x with
      | none => simp
      | some h1 => simpa using ih h1
    | pop =>
      simp only [List.map_cons, heapOp.relabel, runOps, heapPop_relabel]
      cases heapPop h with
      | none => simp
      | some r => simpa using ih r.2

end queueLemmas

section buildLemmas
variable {α : Type}

theorem buildFromPoints_slice (Distance : α → α → ℚ) (rnd : ℕ → ℕ) :
    ∀ (fuel : ℕ) (items : List α) (Length pos : ℕ), items.length < fuel →
      ∃ n after Length1 pos1,
        buildFromPoints Distance rnd fuel items Length pos = some (n, after, Length1, pos1) ∧
        after.length = items.length ∧ (∀ x ∈ after, x ∈ items) ∧
        after.getLast? = items.getLast? := by
  intro fuel
  induction fuel with
  | zero =>
    intro items Length pos h
    omega
  | succ fuel ih =>
    intro items Length pos hfuel
    rcases Nat.lt_or_ge items.length 2 with hlt | h2
    · match items, hlt with
      | [], _ => exact ⟨node.nil, [], Length, pos, by simp [buildFromPoints], rfl, by simp, rfl⟩
      | [x], _ =>
        exact ⟨node.mk x 0 node.nil node.nil, [x], Length, pos + 1,
          by simp [buildFromPoints, subslice, Nat.mod_one], rfl, by simp, rfl⟩
      | _ :: _ :: _, h => simp at h; omega
    · obtain ⟨item, last, m, near, tail, left, right, near1, far1, Length2, Length3, pos2, pos3,
        hitem, hlast, -, hperm, -, -, hl, hr, hmain, -, -⟩ :=
        buildFromPoints_step Distance rnd fuel items Length pos hfuel h2
      have hlen : (near ++ m :: tail).length = items.length - 1 := by
        rw [hperm.length_eq]
        simp
      simp only [List.length_append, List.length_cons] at hlen
      obtain ⟨n1, a1, L1, p1, e1, hl1, hs1, -⟩ :=
        ih near (Length + near.length) (pos + 1) (by omega)
      obtain ⟨n2, a2, L2, p2, e2, hl2, hs2, -⟩ :=
        ih (m :: tail) Length2 pos2 (by simp only [List.length_cons]; omega)
      rw [hl] at e1
      rw [hr] at e2
      simp only [Option.some.injEq, Prod.mk.injEq] at e1 e2
      obtain ⟨-, rfl, -, -⟩ := e1
      obtain ⟨-, rfl, -, -⟩ := e2
      have hlastmem : last ∈ items := List.mem_iff_getElem?.2 ⟨_, hlast⟩
      have hsub : ∀ x ∈ near ++ m :: tail, x ∈ items := by
        intro x hx
        have hx1 := hperm.subset hx
        have hx2 := List.mem_of_mem_take hx1
        rcases List.mem_or_eq_of_mem_set hx2 with h | h
        · exact h
        · exact h ▸ hlastmem
      refine ⟨_, _, _, _, hmain, ?_, ?_, ?_⟩
      · simp only [List.length_append, List.length_cons, List.length_nil, hl1, hl2]
        omega
      · intro x hx
        simp only [List.mem_append, List.mem_singleton] at hx
        rcases hx with (hx | hx) | hx
        · exact hsub x (List.mem_append_left _ (hs1 x hx))
        · exact hsub x (List.mem_append_right _ (hs2 x hx))
        · exact hx ▸ hlastmem
      · rw [List.getLast?_append_of_ne_nil _ (by simp)]
        simp [List.getLast?_eq_getElem?, hlast]

theorem buildFromPoints_drops_pivot (Distance : α → α → ℚ) (rnd : ℕ → ℕ) (fuel : ℕ)
    (items : List α) (Length pos : ℕ) (hfuel : items.length < fuel + 1) (item : α)
    (hitem : items[rnd pos % items.length]? = some item) (hnd : items.Nodup)
    (hidx : rnd pos % items.length ≠ items.length - 1) :
    ∃ n after Length1 pos1,
      buildFromPoints Distance rnd (fuel + 1) items Length pos = some (n, after, Length1, pos1) ∧
      item ∉ after := by
  have hi : rnd pos % items.length < items.length := (List.getElem?_eq_some.1 hitem).1
  have h2 : 2 ≤ items.length := by omega
  have hl : items.length - 1 < items.length := by omega
  obtain ⟨item1, last, m, near, tail, left, right, near1, far1, Length2, Length3, pos2, pos3,
    hitem1, hlast, -, hperm, -, -, hbl, hbr, hmain, -, -⟩ :=
    buildFromPoints_step Distance rnd fuel items Length pos hfuel h2
  have e1 : item1 = item := by
    rw [hitem] at hitem1
    exact (Option.some.inj hitem1).symm
  subst e1
  have eitem : items[rnd pos % items.length] = item1 := (List.getElem?_eq_some.1 hitem).2
  have elast : items[items.length - 1] = last := (List.getElem?_eq_some.1 hlast).2
  have htake := takeout_perm items (rnd pos % items.length) hi hl
  rw [eitem, elast] at htake
  have hnd1 := (htake.nodup_iff).2 hnd
  have hnot : item1 ∉ (items.set (rnd pos % items.length) last).take (items.length - 1) :=
    (List.nodup_cons.1 hnd1).1
  have hne : item1 ≠ last := by
    intro h
    apply hidx
    have key : items[rnd pos % items.length] = items[items.length - 1] ↔
        rnd pos % items.length = items.length - 1 := hnd.getElem_inj_iff
    exact key.1 (by rw [eitem, elast, h])
  have hlen : (near ++ m :: tail).length = items.length - 1 := by
    rw [hperm.length_eq]
    simp
  simp only [List.length_append, List.length_cons] at hlen
  obtain ⟨n1, a1, L1, p1, b1, -, hs1, -⟩ :=
    buildFromPoints_slice Distance rnd fuel near (Length + near.length) (pos + 1) (by omega)
  obtain ⟨n2, a2, L2, p2, b2, -, hs2, -⟩ :=
    buildFromPoints_slice Distance rnd fuel (m :: tail) Length2 pos2
      (by simp only [List.length_cons]; omega)
  rw [hbl] at b1
  rw [hbr] at b2
  simp only [Option.some.injEq, Prod.mk.injEq] at b1 b2
  obtain ⟨-, rfl, -, -⟩ := b1
  obtain ⟨-, rfl, -, -⟩ := b2
  refine ⟨_, _, _, _, hmain, ?_⟩
  intro hx
  simp only [List.mem_append, List.mem_singleton] at hx
  rcases hx with (hx | hx) | hx
  · exact hnot (hperm.subset (List.mem_append_left _ (hs1 _ hx)))
  · exact hnot (hperm.subset (List.mem_append_right _ (hs2 _ hx)))
  · exact hne hx

end buildLemmas

section claims
variable {α : Type}

/-- C21 (counterexample): `New` on the list `[0, 1, 5]`, with the absolute difference as
distance, leaves the caller's slice as `[5, 5, 5]` when every draw is index 0 and as `[0, 5, 5]`
when the draws are 1, 2, 3, ...; neither is a permutation of `[0, 1, 5]`: the slot of the chosen
item is overwritten by a copy of the last item of the range. -/
theorem C21_counterexample :
    New absDist (fun _ => 0) [0, 1, 5] =
      some ({ Root := node.mk 0 1 node.nil (node.mk 1 4 node.nil (node.mk 5 0 node.nil node.nil)),
              Length := 0 }, [5, 5, 5]) ∧
    ¬ List.Perm [(5 : ℚ), 5, 5] [0, 1, 5] ∧
    New absDist (fun n => n + 1) [0, 1, 5] =
      some ({ Root := node.mk 1 4 (node.mk 0 0 node.nil node.nil) (node.mk 5 0 node.nil node.nil),
              Length := 1 }, [0, 5, 5]) ∧
    ¬ List.Perm [(0 : ℚ), 5, 5] [0, 1, 5] := by
  refine ⟨by decide!, ?_, by decide!, ?_⟩
  · intro h
    have := h.symm.subset (List.mem_cons_self (0 : ℚ) _)
    revert this
    decide!
  · intro h
    have := h.symm.subset (List.mem_cons_of_mem 0 (List.mem_cons_self (1 : ℚ) _))
    revert this
    decide!

/-- C21 (amended): the pivot-selection step of `buildFromPoints` removes the chosen item from
the active range by copying the last item of the range over it and shortening the range by one.
For every input list and every sequence of draws `New` returns; the items stored in the tree are
a permutation of the original contents of the caller's collection; the collection afterwards has
its original length, holds only items of its original contents and keeps its last item in place;
and when the items are pairwise distinct and the first draw is not the last index, the item
chosen first is no longer in the collection, which is then not a permutation of its original
contents. -/
theorem C21_caller_slice (Distance : α → α → ℚ) (rnd : ℕ → ℕ) (items : List α) :
    ∃ (vp : VPTree α) (after : List α), New Distance rnd items = some (vp, after) ∧
      vp.Root.items.Perm items ∧
      after.length = items.length ∧ (∀ x ∈ after, x ∈ items) ∧
      after.getLast? = items.getLast? ∧
      ∀ item, items[rnd 0 % items.length]? = some item → items.Nodup →
        rnd 0 % items.length ≠ items.length - 1 → item ∉ after ∧ ¬ after.Perm items := by
  obtain ⟨vp, after, hnew, hperm, -⟩ := New_spec Distance rnd items
  obtain ⟨n, a, L, p, hb, hlen, hsub, hlast⟩ :=
    buildFromPoints_slice Distance rnd (items.length + 1) items 0 0 (by omega)
  have ha : a = after := by
    simp only [New, hb, Option.some.injEq, Prod.mk.injEq] at hnew
    exact hnew.2
  subst ha
  refine ⟨vp, a, hnew, hperm, hlen, hsub, hlast, ?_⟩
  intro item hitem hnd hidx
  obtain ⟨n1, a1, L1, p1, hb1, hnot⟩ :=
    buildFromPoints_drops_pivot Distance rnd items.length items 0 0 (by omega) item hitem hnd hidx
  rw [hb] at hb1
  simp only [Option.some.injEq, Prod.mk.injEq] at hb1
  obtain ⟨-, rfl, -, -⟩ := hb1
  have hmem : item ∈ items := List.mem_iff_getElem?.2 ⟨_, hitem⟩
  exact ⟨hnot, fun h => hnot (h.symm.subset hmem)⟩

/-- C22 (counterexample): the queue obtained from the empty queue by no call at all, and the
queue obtained by one `heap.Push` followed by one `heap.Pop`, are empty; on the empty queue
`Top` and `heap.Pop` index out of range and return no entry. -/
theorem C22_counterexample :
    runOps ([] : List (heapOp ℕ)) [] = some [] ∧
    runOps [heapOp.push { Item := 7, Dist := 3 }, heapOp.pop] [] = some [] ∧
    priorityQueue.Top ([] : priorityQueue ℕ) = none ∧
    heapPop ([] : priorityQueue ℕ) = none := by
  decide!

/-- C22 (amended): for every non-empty priority queue obtained from the empty queue by a
sequence of `heap.Push` and `heap.Pop` calls, `Top` returns an entry of the queue whose `Dist`
is greater than or equal to the `Dist` of every entry; `heap.Pop` returns an entry that is
maximal in the same sense and leaves the other entries, in a queue that is again obtained by
such a sequence; `Less` compares the `Dist` fields of the two entries only; and replacing the
items of the entries by any other values, with the same `Dist`, leads the same sequence of
calls to the same arrangement of the queue. -/
theorem C22_max_heap (ops : List (heapOp α)) (h : priorityQueue α)
    (hr : runOps ops [] = some h) (hne : h ≠ []) :
    (∃ top, h.Top = some top ∧ top ∈ h ∧ ∀ e ∈ h, e.Dist ≤ top.Dist) ∧
    (∃ m rest, heapPop h = some (m, rest) ∧ h.Perm (m :: rest) ∧
      (∀ e ∈ h, e.Dist ≤ m.Dist) ∧ runOps (ops ++ [heapOp.pop]) [] = some rest) ∧
    (∀ i j a b, h[i]? = some a → h[j]? = some b →
      h.Less i j = some (decide (a.Dist > b.Dist))) ∧
    (∀ (β : Type) (g : α → β),
      runOps (ops.map (heapOp.relabel g)) [] = some (h.map (heapItem.relabel g))) := by
  have hp : IsHeap h := runOps_isHeap ops [] h IsHeap.nil hr
  obtain ⟨m, rest, e1, e0, hperm, -, hmax⟩ := heapPop_spec h hp hne
  have hm : m ∈ h := hperm.symm.subset (List.mem_cons_self m rest)
  refine ⟨⟨m, e0, hm, fun e he => hp.le_top e0 he⟩,
    ⟨m, rest, e1, hperm, fun e he => hp.le_top e0 he, ?_⟩, ?_, ?_⟩
  · rw [runOps_append, hr]
    simp [runOps, e1]
  · intro i j a b ha hb
    simp [priorityQueue.Less, ha, hb]
  · intro β g
    have := runOps_relabel g ops ([] : priorityQueue α)
    simpa [hr] using this

theorem C22_max_heap_witness :
    runOps [heapOp.push { Item := 0, Dist := 2 }, heapOp.push { Item := 1, Dist := 5 },
        heapOp.push { Item := 2, Dist := 1 }] ([] : priorityQueue ℕ) =
      some [{ Item := 1, Dist := 5 }, { Item := 0, Dist := 2 }, { Item := 2, Dist := 1 }] ∧
    ∃ top, priorityQueue.Top
        ([{ Item := 1, Dist := 5 }, { Item := 0, Dist := 2 }, { Item := 2, Dist := 1 }] :
          priorityQueue ℕ) = some top ∧
      ∀ e ∈ ([{ Item := 1, Dist := 5 }, { Item := 0, Dist := 2 }, { Item := 2, Dist := 1 }] :
          priorityQueue ℕ), e.Dist ≤ top.Dist :=
  ⟨by decide!,
    let ⟨top, h1, _, h2⟩ := (C22_max_heap
      [heapOp.push { Item := 0, Dist := 2 }, heapOp.push { Item := 1, Dist := 5 },
        heapOp.push { Item := 2, Dist := 1 }]
      [{ Item := 1, Dist := 5 }, { Item := 0, Dist := 2 }, { Item := 2, Dist := 1 }]
      (by decide!) (by simp)).1
    ⟨top, h1, h2⟩⟩

end claims

end vptree
